import Mathlib

/-!
The `lighting` client: handshake, session-key derivation, seal and open.

A shallow embedding of `src/lighting.cpp` and theorems about it.

Conventions of the embedding
* A byte vector (`std::vector<uint8_t>`, and the bytes of an Arduino `String`) is a
  `List Nat`; every place where the C++ narrows a value to `uint8_t` or `uint32_t`
  is an explicit `% 256` or `% 2 ^ 32`.
* A member function that writes fields takes the object and returns the new object
  together with its result (explicit state passing).
* The C++ has no error results.  Where it leaves the bounds of a buffer, calls
  `back()` on an empty vector, or asks `resize` for more than `max_size()`, the
  embedding returns `Outcome.fault`: the source has no defined result there.
* SHA-256 and AES-128 come from an external library (`SHA256.h`, `AES.h`); they are
  parameters (`Crypto`) that carry only the sizes promised by the library interface.
-/

set_option autoImplicit false

/-! ## Results of a call -/

/-- Ways in which a call of the source ends without a defined result. -/
inductive Fault where
  /-- a read or write outside a buffer (undefined behaviour) -/
  | outOfBounds
  /-- the call `back()` on an empty vector (undefined behaviour) -/
  | backOfEmpty
  /-- the `std::length_error` of `resize` beyond `max_size()`, which nothing catches -/
  | lengthError
deriving DecidableEq, Repr

/-- Result of a call of the source: either it returns a value, or it has no defined result. -/
inductive Outcome (α : Type) where
  | returns (a : α)
  | fault (f : Fault)
deriving DecidableEq, Repr

/-! ## External primitives -/

/-- The library primitives used by the client: `SHA256` (digest of `HASH_SIZE = 32`
bytes) and `AES128` (`encryptBlock`/`decryptBlock` under a key installed by `setKey`,
working on 16-byte blocks). -/
structure Crypto where
  sha256 : List Nat → List Nat
  sha256_size : ∀ d, (sha256 d).length = 32
  sha256_byte : ∀ d, ∀ b ∈ sha256 d, b < 256
  encryptBlock : List Nat → List Nat → List Nat
  encryptBlock_size : ∀ k b, b.length = 16 → (encryptBlock k b).length = 16
  decryptBlock : List Nat → List Nat → List Nat
  decryptBlock_size : ∀ k b, b.length = 16 → (decryptBlock k b).length = 16

/-- The assumption that under a 16-byte key `decryptBlock` undoes `encryptBlock`. -/
def Crypto.Inverse (c : Crypto) : Prop :=
  ∀ k b, k.length = 16 → b.length = 16 → c.decryptBlock k (c.encryptBlock k b) = b

/-- The constant `SHA256::HASH_SIZE`. -/
def HASH_SIZE : Nat := 32

/-- The bytes of an ASCII string literal. -/
def ascii (s : String) : List Nat := s.data.map Char.toNat

/-- Big-endian encoding of the low 32 bits of `n` in four bytes (the specification's
`big-endian(sequence)`). -/
def BE32 (n : Nat) : List Nat :=
  [n / 2 ^ 24 % 256, n / 2 ^ 16 % 256, n / 2 ^ 8 % 256, n % 256]

/-! ## The client object -/

/-- The fields of `class lighting` (`lighting.h`).  `seq` is a `uint32_t`. -/
structure lighting where
  url : String
  cookie : String
  creds : List Nat
  localHash : List Nat
  key : List Nat
  sig : List Nat
  iv : List Nat
  seq : Nat
deriving DecidableEq, Repr

namespace lighting

/-- Source: `lighting::SHA256Hash`: a fresh `HASH_SIZE`-byte vector filled by
`reset`, `update(data)`, `finalize`. -/
def SHA256Hash (c : Crypto) (data : List Nat) : List Nat :=
  c.sha256 data

/-- Source: `lighting::checkResponse`. -/
def checkResponse (responseCode : Int) : Bool :=
  responseCode == 200

/-- Source: `lighting::encryptionSetup`.  `temp` always holds 32 bytes, so the ranges
`temp.begin() .. temp.begin() + 16/28/12` and the indices `temp.size() - 4 ..` are
inside it.  The shifts are done in `int` and the result narrowed to `uint32_t`. -/
def encryptionSetup (c : Crypto) (self : lighting) : lighting :=
  let local_hash := self.localHash
  -- Key generation
  let temp := SHA256Hash c (['l'.toNat, 's'.toNat, 'k'.toNat] ++ local_hash)
  let self := { self with key := temp.take 16 }
  -- Encryption signature
  let temp := SHA256Hash c (['l'.toNat, 'd'.toNat, 'k'.toNat] ++ local_hash)
  let self := { self with sig := temp.take 28 }
  -- IV and sequence
  let temp := SHA256Hash c (['i'.toNat, 'v'.toNat] ++ local_hash)
  let self := { self with iv := temp.take 12 }
  let seq := ((temp.getD (temp.length - 4) 0 <<< 24) ||| (temp.getD (temp.length - 3) 0 <<< 16)
    ||| (temp.getD (temp.length - 2) 0 <<< 8) ||| temp.getD (temp.length - 1) 0) % 2 ^ 32
  { self with seq := seq }

/-- Source: `lighting::seq_to_bytes`. -/
def seq_to_bytes (self : lighting) : List Nat :=
  let seq := self.seq
  [(seq >>> 24) &&& 0xFF, (seq >>> 16) &&& 0xFF, (seq >>> 8) &&& 0xFF, seq &&& 0xFF]

/-- Source: `lighting::iv_seq`. -/
def iv_seq (self : lighting) : List Nat :=
  self.iv ++ self.seq_to_bytes

/-- Source: `lighting::pkcs7_pad`.  `insert(end, pad_len, pad_len)` appends `pad_len`
copies of `pad_len` narrowed to `uint8_t`.  (The only call passes `block_size = 16`;
`block_size = 0` would divide by zero in the source.) -/
def pkcs7_pad (data : List Nat) (block_size : Nat) : List Nat :=
  let pad_len := block_size - (data.length % block_size)
  data ++ List.replicate pad_len (pad_len % 256)

/-- Source: `lighting::xorBlock`: the first `length` bytes at `dst` after
`dst[i] ^= src[i]`. -/
def xorBlock (dst src : List Nat) (length : Nat) : List Nat :=
  List.zipWith (fun d s => d ^^^ s) (dst.take length) (src.take length)

/-- The CBC loop of `lighting::encrypt`,
`for (i = 0; i < padded_data.size(); i += 16)`.  The first argument counts the
iterations still to run, `padded` is the buffer from `padded_data.data() + i` to its
end, and the result is `cipher_bytes` from offset `i` on. -/
def encryptLoop (c : Crypto) (key : List Nat) : Nat → List Nat → List Nat → Outcome (List Nat)
  | 0, _, _ => .returns []
  | n + 1, padded, current_iv =>
    if padded.length < 16 then .fault .outOfBounds
    else
      let block := xorBlock (padded.take 16) current_iv 16
      let out := c.encryptBlock key block
      match encryptLoop c key n (padded.drop 16) out with
      | .returns rest => .returns (out ++ rest)
      | .fault f => .fault f

/-- Source: `lighting::encrypt`.  The only field write is `this->seq++`, the first
statement.  `memcpy(current_iv, iv_seq_data.data(), 16)` needs 16 bytes in
`iv_seq_data`.  The loop runs `⌈padded_data.size() / 16⌉` times. -/
def encrypt (c : Crypto) (self : lighting) (data : List Nat) : lighting × Outcome (List Nat) :=
  let self := { self with seq := (self.seq + 1) % 2 ^ 32 }
  let iv_seq_data := self.iv_seq
  let padded_data := pkcs7_pad data 16
  if iv_seq_data.length < 16 then (self, .fault .outOfBounds)
  else
    let current_iv := iv_seq_data.take 16
    match encryptLoop c self.key ((padded_data.length + 15) / 16) padded_data current_iv with
    | .fault f => (self, .fault f)
    | .returns cipher_bytes =>
      let signature_input := self.sig ++ self.seq_to_bytes ++ cipher_bytes
      let signature := SHA256Hash c signature_input
      (self, .returns (signature ++ cipher_bytes))

/-- The CBC loop of `lighting::decrypt`,
`for (i = 0; i < cipher_bytes.size(); i += 16)`; arguments as in `encryptLoop`, the
result is `decrypted_bytes` from offset `i` on. -/
def decryptLoop (c : Crypto) (key : List Nat) : Nat → List Nat → List Nat → Outcome (List Nat)
  | 0, _, _ => .returns []
  | n + 1, cipher, current_iv =>
    if cipher.length < 16 then .fault .outOfBounds
    else
      let out := xorBlock (c.decryptBlock key (cipher.take 16)) current_iv 16
      match decryptLoop c key n (cipher.drop 16) (cipher.take 16) with
      | .returns rest => .returns (out ++ rest)
      | .fault f => .fault f

/-- Lines 281-300 of `lighting::decrypt`: the buffer `decrypted_bytes` after the loop.
The iterator `encryptedData.begin() + HASH_SIZE` needs `HASH_SIZE` bytes of input. -/
def decryptedBytes (c : Crypto) (self : lighting) (encryptedData : List Nat) :
    Outcome (List Nat) :=
  if encryptedData.length < HASH_SIZE then .fault .outOfBounds
  else
    let cipher_bytes := encryptedData.drop HASH_SIZE
    let iv_seq_data := self.iv_seq
    if iv_seq_data.length < 16 then .fault .outOfBounds
    else
      let current_iv := iv_seq_data.take 16
      decryptLoop c self.key ((cipher_bytes.length + 15) / 16) cipher_bytes current_iv

/-- Lines 303-304 of `lighting::decrypt`: `pad_len = decrypted_bytes.back()` and
`resize(size() - pad_len)`.  The subtraction is done in `size_t`: when `pad_len`
exceeds the size it wraps to a value above `max_size()` and `resize` throws. -/
def removePadding (decrypted_bytes : List Nat) : Outcome (List Nat) :=
  match decrypted_bytes.getLast? with
  | none => .fault .backOfEmpty
  | some pad_len =>
    if decrypted_bytes.length < pad_len then .fault .lengthError
    else .returns (decrypted_bytes.take (decrypted_bytes.length - pad_len))

/-- Source: `lighting::decrypt`.  It writes no field. -/
def decrypt (c : Crypto) (self : lighting) (encryptedData : List Nat) :
    lighting × Outcome (List Nat) :=
  match decryptedBytes c self encryptedData with
  | .fault f => (self, .fault f)
  | .returns decrypted_bytes => (self, removePadding decrypted_bytes)

/-- The object as the body of `encrypt` sees it, after `this->seq++`. -/
def bump (s : lighting) : lighting :=
  { s with seq := (s.seq + 1) % 2 ^ 32 }

/-- Consecutive calls of `encrypt`, one per payload: the final object and, for each
call in order, the object it left behind together with what it returned. -/
def encryptAll (c : Crypto) : lighting → List (List Nat) →
    lighting × List (lighting × Outcome (List Nat))
  | s, [] => (s, [])
  | s, p :: ps =>
    let r := encrypt c s p
    let rest := encryptAll c r.1 ps
    (rest.1, r :: rest.2)

/-- A request as handed to the transport (`http.begin`, `addHeader`, `POST`). -/
structure Request where
  url : String
  /-- the `Cookie` header, when one was added -/
  cookie : Option String
  body : List Nat
deriving DecidableEq, Repr

/-- What the transport hands back for a request. -/
structure Response where
  /-- the return value of `http.POST` -/
  code : Int
  /-- the value of `http.header("Set-Cookie")` -/
  setCookie : String
  /-- the bytes of `http.getString()` -/
  body : List Nat
deriving DecidableEq, Repr

/-- Conversion of an Arduino `String` holding bytes to a `std::string` through
`c_str()`: a C string ends at its first NUL byte. -/
def cstrBytes (b : List Nat) : List Nat :=
  b.takeWhile (fun x => x != 0)

/-- The same conversion for text. -/
def cstr (s : String) : String :=
  ⟨s.data.takeWhile (fun x => x != Char.ofNat 0)⟩

/-- One run of `handShake`: the object it leaves, the requests it sent in order, and
its return value. -/
structure HandShakeRun where
  self : lighting
  sent : List Request
  result : Outcome Bool
deriving DecidableEq, Repr

/-- Source: `lighting::handShake`.  The inputs besides the object are the draw of
`genLocalSeed` and the responses of the device to the two requests.
`responseStd.begin() + 16` needs 16 bytes in `responseStd`. -/
def handShake (c : Crypto) (self : lighting) (localSeed : List Nat) (r1 r2 : Response) :
    HandShakeRun :=
  let req1 : Request := { url := self.url ++ "/handshake1", cookie := none, body := localSeed }
  if !checkResponse r1.code then
    { self := self, sent := [req1], result := .returns false }
  else
    -- Saving the SessionID from the remote response headers
    let cookieStd := cstr r1.setCookie
    let sessionId : String := ⟨cookieStd.data.takeWhile (fun x => x != ';')⟩
    let self := { self with cookie := cstr sessionId }
    -- Getting the remote seed from the body of the remote response
    let responseStd := cstrBytes r1.body
    if responseStd.length < 16 then
      { self := self, sent := [req1], result := .fault .outOfBounds }
    else
      let remote_seed := responseStd.take 16
      -- Preparing the payload for handshake 2
      let combined_seed := remote_seed ++ localSeed ++ self.creds
      let payload := SHA256Hash c combined_seed
      let req2 : Request :=
        { url := self.url ++ "/handshake2", cookie := some self.cookie, body := payload }
      if !checkResponse r2.code then
        { self := self, sent := [req1, req2], result := .returns false }
      else
        let localhash := localSeed ++ remote_seed ++ self.creds
        { self := { self with localHash := localhash }, sent := [req1, req2],
          result := .returns true }

/-- Lines 121-123 of `lighting::handShake`: the session cookie taken from the value of
the `Set-Cookie` header: converted through `c_str()`, cut before the first `;`
(`substr(0, find(';'))`, the whole string when there is none), and stored through
`c_str()` again. -/
def sessionCookie (h : String) : String :=
  let cookieStd := cstr h
  let sessionId : String := ⟨cookieStd.data.takeWhile (fun x => x != ';')⟩
  cstr sessionId

/-- What the outside supplies to one call of `handShake`: the draw of `genLocalSeed`
and the answers of the device to round 1 and round 2. -/
structure Attempt where
  localSeed : List Nat
  r1 : Response
  r2 : Response
deriving DecidableEq, Repr

/-- The retry loop of the constructors,
`success = handShake(); while (!success) success = handShake();`, over the answers the
outside gives to the successive attempts.  `returns true`: an attempt succeeded and
the loop is left; `returns false`: every attempt listed has failed and the loop is
still running. -/
def handShakeLoop (c : Crypto) : lighting → List Attempt → lighting × Outcome Bool
  | self, [] => (self, .returns false)
  | self, a :: rest =>
    let run := handShake c self a.localSeed a.r1 a.r2
    match run.result with
    | .returns true => (run.self, .returns true)
    | .returns false => handShakeLoop c run.self rest
    | .fault f => (run.self, .fault f)

/-- Source: `lighting::lighting(String url, std::vector<uint8_t> creds)`.  The other
members start empty; `seq` has no initialiser and starts at some value `seq0`.  The
result is `some` object once the loop has been left and `encryptionSetup` has run,
`none` while the loop is still running. -/
def construct (c : Crypto) (url : String) (creds : List Nat) (seq0 : Nat)
    (attempts : List Attempt) : Outcome (Option lighting) :=
  let self : lighting :=
    { url := url, cookie := "", creds := creds, localHash := [], key := [], sig := [],
      iv := [], seq := seq0 }
  match handShakeLoop c self attempts with
  | (self, .returns true) => .returns (some (encryptionSetup c self))
  | (_, .returns false) => .returns none
  | (_, .fault f) => .fault f

/-- The reading of the last four bytes of a buffer done in `encryptionSetup` (line 183):
`(temp[size-4] << 24) | (temp[size-3] << 16) | (temp[size-2] << 8) | temp[size-1]`,
narrowed to `uint32_t`. -/
def readSeq (temp : List Nat) : Nat :=
  ((temp.getD (temp.length - 4) 0 <<< 24) ||| (temp.getD (temp.length - 3) 0 <<< 16)
    ||| (temp.getD (temp.length - 2) 0 <<< 8) ||| temp.getD (temp.length - 1) 0) % 2 ^ 32

/-- Source: `struct LightResult` (`lighting.h`); `response` holds the bytes of the
`String`. -/
structure LightResult where
  success : Bool
  response : List Nat
deriving DecidableEq, Repr

/-- One run of `executeRequest`: the object it leaves, the requests it sent, and its
return value. -/
structure RequestRun where
  self : lighting
  sent : List Request
  result : Outcome LightResult
deriving DecidableEq, Repr

/-- Source: `lighting::executeRequest`.  `resp` is the answer of the device: its status
and, in `body`, the bytes that the stream loop collects into `response`.
`String(this->seq)` is the decimal numeral of `seq`.  There is one `POST` and no loop
around it. -/
def executeRequest (c : Crypto) (self : lighting) (data : List Nat) (resp : Response) :
    RequestRun :=
  match encrypt c self data with
  | (self, .fault f) => { self := self, sent := [], result := .fault f }
  | (self, .returns payload) =>
    let fullurl := self.url ++ "/request?seq=" ++ toString self.seq
    let req : Request := { url := fullurl, cookie := some self.cookie, body := payload }
    if !checkResponse resp.code then
      { self := self, sent := [req], result := .returns { success := false, response := [] } }
    else
      match decrypt c self resp.body with
      | (self, .fault f) => { self := self, sent := [req], result := .fault f }
      | (self, .returns decryptStr) =>
        { self := self, sent := [req],
          result := .returns { success := true, response := decryptStr } }

/-- A value assigned into a `JsonDocument`. -/
inductive JsonScalar where
  | str (s : String)
  | bool (b : Bool)
deriving DecidableEq, Repr

/-- A `JsonDocument` as built by assignments `doc[k1]..[kn] = v`: the paths assigned, in
order, with their values. -/
abbrev JsonDocument := List (List String × JsonScalar)

/-- The document that `lighting::toggleLight` builds (lines 358-361). -/
def toggleLightDoc (_lightState : Bool) : JsonDocument :=
  [(["method"], .str "set_device_info"), (["params", "device_on"], .bool true)]

/-- Source: `lighting::toggleLight`.  `serializeJson` is the library function that
writes the document into the `String data`. -/
def toggleLight (c : Crypto) (serializeJson : JsonDocument → List Nat) (self : lighting)
    (lightState : Bool) (resp : Response) : RequestRun :=
  let doc := toggleLightDoc lightState
  let data := serializeJson doc
  executeRequest c self data resp

end lighting

/-! ## Reference CBC, in the words of the specification -/

/-- The first `n` 16-byte blocks of a buffer. -/
def blocks16 : Nat → List Nat → List (List Nat)
  | 0, _ => []
  | n + 1, l => l.take 16 :: blocks16 n (l.drop 16)

/-- Reference CBC chaining over a list of blocks with block cipher `E`:
`c_0 = E (p_0 xor iv)` and `c_i = E (p_i xor c_(i-1))`. -/
def cbcEncrypt (E : List Nat → List Nat) : List Nat → List (List Nat) → List (List Nat)
  | _, [] => []
  | prev, p :: ps =>
    let ci := E (List.zipWith (fun a b => a ^^^ b) p prev)
    ci :: cbcEncrypt E ci ps

/-- Reference sealing with the sequence value `n`, in the words of the specification
(§4.3): nonce = baseIV ‖ big-endian(n); the payload is PKCS7-padded to whole 16-byte
blocks and encrypted in CBC chaining from the nonce; tag = Digest(authKey ‖
big-endian(n) ‖ ciphertext); the result is tag ‖ ciphertext.  The digest is the library
digest `c.sha256`. -/
def sealWith (c : Crypto) (key sig iv : List Nat) (n : Nat) (P : List Nat) : List Nat :=
  let nonce := iv ++ BE32 n
  let padded := P ++ List.replicate (16 - P.length % 16) (16 - P.length % 16)
  let ct := (cbcEncrypt (c.encryptBlock key) nonce (blocks16 (padded.length / 16) padded)).flatten
  c.sha256 (sig ++ BE32 n ++ ct) ++ ct

/-! ## A small instance of the primitives, for concrete evaluation -/

/-- A stand-in digest: 32 bytes that depend on the input. -/
def toySha (d : List Nat) : List Nat :=
  (List.range 32).map (fun i => (d.sum + d.length + i) % 256)

/-- A stand-in block cipher: rotation of the block by one byte (key-independent). -/
def toyCrypto : Crypto where
  sha256 := toySha
  sha256_size := by intro d; simp [toySha]
  sha256_byte := by
    intro d b hb
    simp only [toySha, List.mem_map] at hb
    obtain ⟨i, _, rfl⟩ := hb
    exact Nat.mod_lt _ (by norm_num)
  encryptBlock := fun _ b => b.rotate 1
  encryptBlock_size := by intro k b hb; simp [hb]
  decryptBlock := fun _ b => b.rotate 15
  decryptBlock_size := by intro k b hb; simp [hb]

/-- A client state with the field sizes that a successful construction leaves (16-byte
key, 28-byte sig, 12-byte iv), for concrete evaluation. -/
def sampleState : lighting :=
  { url := "http://192.168.1.10/app", cookie := "TP_SESSIONID=ABC",
    creds := [1, 2, 3], localHash := [4, 5, 6],
    key := List.replicate 16 7, sig := List.replicate 28 9,
    iv := [1, 2, 3, 4, 5, 6, 7, 8, 9, 10, 11, 12], seq := 41 }

/-- A client object before its first handshake. -/
def freshState : lighting :=
  { url := "http://192.168.1.10/app", cookie := "", creds := [1, 2, 3], localHash := [],
    key := [], sig := [], iv := [], seq := 0 }

/-- A local seed `00 01 .. 0F`. -/
def seedL : List Nat := List.range 16

/-- A round-1 response whose body starts with the remote seed `10 11 .. 1F`. -/
def round1Ok : lighting.Response :=
  { code := 200, setCookie := "TP_SESSIONID=ABC;TIMEOUT=1440",
    body := (List.range 48).map (fun i => 16 + i) }

/-- A round-1 response whose remote seed `10 00 12 13 .. 1F` has a zero byte in it. -/
def round1Nul : lighting.Response :=
  { code := 200, setCookie := "TP_SESSIONID=ABC;TIMEOUT=1440",
    body := [16, 0] ++ (List.range 46).map (fun i => 18 + i) }

/-- A round-2 response that accepts. -/
def round2Ok : lighting.Response :=
  { code := 200, setCookie := "", body := [] }

/-- A round-1 response that is refused. -/
def round1Fail : lighting.Response :=
  { code := 500, setCookie := "", body := [] }

/-- A round-1 response with another session cookie. -/
def round1Old : lighting.Response :=
  { code := 200, setCookie := "TP_SESSIONID=OLD;TIMEOUT=1440",
    body := (List.range 48).map (fun i => 64 + i) }

/-- A round-2 response that refuses. -/
def round2Fail : lighting.Response :=
  { code := 403, setCookie := "", body := [] }

/-- A stand-in for `serializeJson`: one byte per assigned path. -/
def toySerialize (doc : lighting.JsonDocument) : List Nat :=
  doc.map (fun m => m.1.length)

/-! ## Auxiliary lemmas -/

namespace lighting

theorem zipWith_xor_cancel : ∀ (a b : List Nat), a.length ≤ b.length →
    List.zipWith (fun d s => d ^^^ s) (List.zipWith (fun d s => d ^^^ s) a b) b = a
  | [], _, _ => by simp
  | x :: a, [], h => by simp at h
  | x :: a, y :: b, h => by
    have h' : a.length ≤ b.length := by simpa using h
    simp [Nat.xor_cancel_right, zipWith_xor_cancel a b h']

theorem xorBlock_length (a b : List Nat) (ha : a.length = 16) (hb : b.length = 16) :
    (xorBlock a b 16).length = 16 := by
  simp [xorBlock, ha, hb]

theorem xorBlock_eq_zipWith (a b : List Nat) (ha : a.length = 16) (hb : b.length = 16) :
    xorBlock a b 16 = List.zipWith (fun d s => d ^^^ s) a b := by
  unfold xorBlock
  rw [List.take_of_length_le (by omega), List.take_of_length_le (by omega)]

theorem xorBlock_cancel (a b : List Nat) (ha : a.length = 16) (hb : b.length = 16) :
    xorBlock (xorBlock a b 16) b 16 = a := by
  rw [xorBlock_eq_zipWith _ b (xorBlock_length a b ha hb) hb, xorBlock_eq_zipWith a b ha hb]
  exact zipWith_xor_cancel a b (by omega)

theorem pkcs7_pad_eq (d : List Nat) :
    pkcs7_pad d 16 = d ++ List.replicate (16 - d.length % 16) (16 - d.length % 16) := by
  have h : (16 - d.length % 16) % 256 = 16 - d.length % 16 := by omega
  simp only [pkcs7_pad, h]

theorem pkcs7_pad_length (d : List Nat) :
    (pkcs7_pad d 16).length = 16 * (d.length / 16 + 1) := by
  rw [pkcs7_pad_eq, List.length_append, List.length_replicate]
  omega

theorem seq_to_bytes_eq_BE32 (s : lighting) : s.seq_to_bytes = BE32 s.seq := by
  have h : ∀ x : Nat, x &&& 0xFF = x % 256 := fun x => Nat.and_pow_two_sub_one_eq_mod x 8
  simp only [seq_to_bytes, BE32, h, Nat.shiftRight_eq_div_pow]

theorem seq_to_bytes_length (s : lighting) : s.seq_to_bytes.length = 4 := rfl

theorem iv_seq_length (s : lighting) : s.iv_seq.length = s.iv.length + 4 := by
  simp [iv_seq, seq_to_bytes_length]

theorem BE32_mod (n : Nat) : BE32 (n % 2 ^ 32) = BE32 n := by
  simp only [BE32]
  congr 1
  · omega
  congr 1
  · omega
  congr 1
  · omega
  congr 1
  omega

/-- On a buffer of `n` whole blocks the CBC loop of `encrypt` returns `n` blocks. -/
theorem encryptLoop_returns (c : Crypto) (key : List Nat) :
    ∀ (n : Nat) (buf iv : List Nat), buf.length = 16 * n → iv.length = 16 →
      ∃ ct, encryptLoop c key n buf iv = .returns ct ∧ ct.length = 16 * n
  | 0, _, _, _, _ => ⟨[], rfl, rfl⟩
  | n + 1, buf, iv, hb, hi => by
    have hlt : ¬ buf.length < 16 := by omega
    have htake : (buf.take 16).length = 16 := by simp; omega
    have hblk := xorBlock_length _ iv htake hi
    have hout := c.encryptBlock_size key _ hblk
    obtain ⟨ct, hct, hlen⟩ := encryptLoop_returns c key n (buf.drop 16)
      (c.encryptBlock key (xorBlock (buf.take 16) iv 16)) (by simp; omega) hout
    refine ⟨c.encryptBlock key (xorBlock (buf.take 16) iv 16) ++ ct, ?_, ?_⟩
    · simp only [encryptLoop, if_neg hlt, hct]
    · simp [hout, hlen]; omega

/-- Under the inverse assumption the CBC loop of `decrypt` undoes the one of `encrypt`. -/
theorem decryptLoop_encryptLoop (c : Crypto) (hinv : c.Inverse) (key : List Nat)
    (hk : key.length = 16) :
    ∀ (n : Nat) (buf iv ct : List Nat), buf.length = 16 * n → iv.length = 16 →
      encryptLoop c key n buf iv = .returns ct → decryptLoop c key n ct iv = .returns buf
  | 0, buf, _, ct, hb, _, h => by
    simp only [encryptLoop, Outcome.returns.injEq] at h
    have : buf = [] := List.eq_nil_of_length_eq_zero (by omega)
    subst this; subst h
    rfl
  | n + 1, buf, iv, ct, hb, hi, h => by
    have hlt : ¬ buf.length < 16 := by omega
    have htake : (buf.take 16).length = 16 := by simp; omega
    have hblk := xorBlock_length _ iv htake hi
    have hout := c.encryptBlock_size key _ hblk
    obtain ⟨ct', hct', hlen'⟩ := encryptLoop_returns c key n (buf.drop 16)
      (c.encryptBlock key (xorBlock (buf.take 16) iv 16)) (by simp; omega) hout
    simp only [encryptLoop, if_neg hlt, hct', Outcome.returns.injEq] at h
    subst h
    have ih := decryptLoop_encryptLoop c hinv key hk n (buf.drop 16) _ ct' (by simp; omega) hout hct'
    have hlt' : ¬ (c.encryptBlock key (xorBlock (buf.take 16) iv 16) ++ ct').length < 16 := by
      simp [hout]
    have e1 : (c.encryptBlock key (xorBlock (buf.take 16) iv 16) ++ ct').take 16
        = c.encryptBlock key (xorBlock (buf.take 16) iv 16) := by
      rw [List.take_append_of_le_length (by omega), List.take_of_length_le (by omega)]
    have e2 : (c.encryptBlock key (xorBlock (buf.take 16) iv 16) ++ ct').drop 16 = ct' := by
      rw [List.drop_append_of_le_length (by omega), List.drop_of_length_le (by omega)]
      rfl
    simp only [decryptLoop, if_neg hlt', e1, e2, ih, hinv key _ hk hblk,
      xorBlock_cancel _ iv htake hi, List.take_append_drop]

end lighting

namespace lighting

theorem bump_seq_to_bytes (s : lighting) : s.bump.seq_to_bytes = BE32 (s.seq + 1) := by
  rw [seq_to_bytes_eq_BE32]
  exact BE32_mod (s.seq + 1)

/-- Shape of a call of `encrypt` in a state whose `iv` has at least 12 bytes. -/
theorem encrypt_shape (c : Crypto) (s : lighting) (P : List Nat) (hiv : 12 ≤ s.iv.length) :
    ∃ ct, encryptLoop c s.key (P.length / 16 + 1) (pkcs7_pad P 16)
        ((s.iv ++ BE32 (s.seq + 1)).take 16) = .returns ct
      ∧ ct.length = 16 * (P.length / 16 + 1)
      ∧ encrypt c s P
        = (s.bump, .returns (SHA256Hash c (s.sig ++ BE32 (s.seq + 1) ++ ct) ++ ct)) := by
  have hivlen : ((s.iv ++ BE32 (s.seq + 1)).take 16).length = 16 := by
    simp [BE32]; omega
  obtain ⟨ct, hct, hlen⟩ := encryptLoop_returns c s.key (P.length / 16 + 1) (pkcs7_pad P 16)
    ((s.iv ++ BE32 (s.seq + 1)).take 16) (pkcs7_pad_length P) hivlen
  refine ⟨ct, hct, hlen, ?_⟩
  have hn : ((pkcs7_pad P 16).length + 15) / 16 = P.length / 16 + 1 := by
    rw [pkcs7_pad_length]; omega
  have hlt : ¬ s.bump.iv_seq.length < 16 := by
    rw [iv_seq_length]; show ¬ s.iv.length + 4 < 16; omega
  have hivs : s.bump.iv_seq = s.iv ++ BE32 (s.seq + 1) := by
    simp only [iv_seq, bump_seq_to_bytes]; rfl
  have hkey : s.bump.key = s.key := rfl
  have hsig : s.bump.sig = s.sig := rfl
  show (if s.bump.iv_seq.length < 16 then (s.bump, Outcome.fault Fault.outOfBounds)
    else match encryptLoop c s.bump.key (((pkcs7_pad P 16).length + 15) / 16) (pkcs7_pad P 16)
        (s.bump.iv_seq.take 16) with
      | .fault f => (s.bump, .fault f)
      | .returns cipher_bytes =>
        (s.bump, .returns (SHA256Hash c (s.bump.sig ++ s.bump.seq_to_bytes ++ cipher_bytes)
          ++ cipher_bytes))) = _
  rw [if_neg hlt, hn, hivs, hkey, hct, hsig, bump_seq_to_bytes]

theorem removePadding_pkcs7_pad (P : List Nat) : removePadding (pkcs7_pad P 16) = .returns P := by
  have hk : 16 - P.length % 16 ≠ 0 := by omega
  have hlast : (pkcs7_pad P 16).getLast? = some (16 - P.length % 16) := by
    rw [pkcs7_pad_eq, List.getLast?_append, List.getLast?_replicate, if_neg hk]
    rfl
  have hlen : (pkcs7_pad P 16).length = P.length + (16 - P.length % 16) := by
    rw [pkcs7_pad_eq]; simp
  have hlt : ¬ (pkcs7_pad P 16).length < 16 - P.length % 16 := by omega
  simp only [removePadding, hlast, if_neg hlt]
  rw [hlen, Nat.add_sub_cancel, pkcs7_pad_eq, List.take_left]

end lighting

/-! ## Claims -/

namespace lighting

/-- Claim C1. Round trip: in a state with a 16-byte key and a 12-byte iv, `encrypt` returns a
sealed message for every payload `P` (empty and whole-block payloads included), leaves
the state with the same fields and the incremented `seq`, and `decrypt` of that
message in that state returns exactly `P`, assuming `decryptBlock` undoes
`encryptBlock` under the same key. -/
theorem C1_decrypt_encrypt_roundtrip (c : Crypto) (hinv : c.Inverse) (s : lighting)
    (hkey : s.key.length = 16) (hiv : s.iv.length = 12) (P : List Nat) :
    ∃ wire, encrypt c s P = ({ s with seq := (s.seq + 1) % 2 ^ 32 }, .returns wire)
      ∧ decrypt c (encrypt c s P).1 wire = ((encrypt c s P).1, .returns P) := by
  obtain ⟨ct, hct, hlen, henc⟩ := encrypt_shape c s P (by omega)
  refine ⟨_, henc, ?_⟩
  rw [henc]
  have hivlen : ((s.iv ++ BE32 (s.seq + 1)).take 16).length = 16 := by
    simp [BE32]; omega
  have hdec := decryptLoop_encryptLoop c hinv s.key hkey (P.length / 16 + 1) (pkcs7_pad P 16)
    _ ct (pkcs7_pad_length P) hivlen hct
  have hsz : (SHA256Hash c (s.sig ++ BE32 (s.seq + 1) ++ ct)).length = 32 := c.sha256_size _
  generalize SHA256Hash c (s.sig ++ BE32 (s.seq + 1) ++ ct) = tag at hsz ⊢
  have hge : ¬ (tag ++ ct).length < HASH_SIZE := by
    rw [List.length_append, hsz]; simp [HASH_SIZE]
  have hdrop : (tag ++ ct).drop HASH_SIZE = ct := by
    have h32 : HASH_SIZE = tag.length := hsz.symm
    rw [h32, List.drop_left]
  have hlt : ¬ s.bump.iv_seq.length < 16 := by
    rw [iv_seq_length]; show ¬ s.iv.length + 4 < 16; omega
  have hivs : s.bump.iv_seq = s.iv ++ BE32 (s.seq + 1) := by
    simp only [iv_seq, bump_seq_to_bytes]; rfl
  have hn : (ct.length + 15) / 16 = P.length / 16 + 1 := by omega
  have hkey' : s.bump.key = s.key := rfl
  have hbytes : decryptedBytes c s.bump (tag ++ ct) = .returns (pkcs7_pad P 16) := by
    unfold decryptedBytes
    rw [if_neg hge, hdrop, if_neg hlt, hivs, hn, hkey', hdec]
  simp only [decrypt, hbytes, removePadding_pkcs7_pad]

/-- Witness of C1 on the stand-in primitives: the payload "hi" in `sampleState`. -/
theorem C1_decrypt_encrypt_roundtrip_witness :
    ∃ wire, encrypt toyCrypto sampleState [104, 105]
        = ({ sampleState with seq := (sampleState.seq + 1) % 2 ^ 32 }, .returns wire)
      ∧ decrypt toyCrypto (encrypt toyCrypto sampleState [104, 105]).1 wire
        = ((encrypt toyCrypto sampleState [104, 105]).1, .returns [104, 105]) :=
  C1_decrypt_encrypt_roundtrip toyCrypto
    (by
      intro k b _ hb
      show (b.rotate 1).rotate 15 = b
      have h16 : 1 + 15 = b.length := by omega
      rw [List.rotate_rotate, h16, List.rotate_length])
    sampleState (by decide) (by decide) [104, 105]

end lighting

namespace lighting

/-- Whatever `encrypt` returns, the object it leaves is the one after `this->seq++`. -/
theorem encrypt_fst (c : Crypto) (s : lighting) (P : List Nat) : (encrypt c s P).1 = s.bump := by
  show (if s.bump.iv_seq.length < 16 then (s.bump, Outcome.fault Fault.outOfBounds)
    else match encryptLoop c s.bump.key (((pkcs7_pad P 16).length + 15) / 16) (pkcs7_pad P 16)
        (s.bump.iv_seq.take 16) with
      | .fault f => (s.bump, .fault f)
      | .returns cipher_bytes =>
        (s.bump, .returns (SHA256Hash c (s.bump.sig ++ s.bump.seq_to_bytes ++ cipher_bytes)
          ++ cipher_bytes))).1 = _
  split
  · rfl
  · split <;> rfl

theorem BE32_injective (a b : Nat) (h : BE32 a = BE32 b) : a % 2 ^ 32 = b % 2 ^ 32 := by
  simp only [BE32, List.cons.injEq, and_true] at h
  omega

/-- The sequence values of consecutive calls of `encrypt`, and the final one. -/
theorem encryptAll_seq (c : Crypto) : ∀ (ps : List (List Nat)) (s : lighting), s.seq < 2 ^ 32 →
    (encryptAll c s ps).1.seq = (s.seq + ps.length) % 2 ^ 32
    ∧ (encryptAll c s ps).2.map (fun r => r.1.seq)
      = (List.range ps.length).map (fun i => (s.seq + i + 1) % 2 ^ 32)
    ∧ (encryptAll c s ps).2.map (fun r => r.1.iv) = List.replicate ps.length s.iv
  | [], s, hs => by
    refine ⟨?_, rfl, rfl⟩
    show s.seq = (s.seq + 0) % 2 ^ 32
    omega
  | p :: ps, s, hs => by
    have hb : s.bump.seq < 2 ^ 32 := Nat.mod_lt _ (by norm_num)
    obtain ⟨h1, h2, h3⟩ := encryptAll_seq c ps s.bump hb
    have e : encryptAll c s (p :: ps)
        = ((encryptAll c (encrypt c s p).1 ps).1,
            encrypt c s p :: (encryptAll c (encrypt c s p).1 ps).2) := rfl
    have hbs : s.bump.seq = (s.seq + 1) % 2 ^ 32 := rfl
    have hbi : s.bump.iv = s.iv := rfl
    rw [e, encrypt_fst]
    refine ⟨?_, ?_, ?_⟩
    · show (encryptAll c s.bump ps).1.seq = _
      rw [h1, hbs, List.length_cons]
      omega
    · show (encrypt c s p).1.seq :: (encryptAll c s.bump ps).2.map (fun r => r.1.seq) = _
      rw [h2, encrypt_fst, hbs, List.length_cons, List.range_succ_eq_map, List.map_cons,
        List.map_map]
      congr 1
      apply List.map_congr_left
      intro i _
      show (((s.seq + 1) % 2 ^ 32) + i + 1) % 2 ^ 32 = (s.seq + (i + 1) + 1) % 2 ^ 32
      omega
    · show (encrypt c s p).1.iv :: (encryptAll c s.bump ps).2.map (fun r => r.1.iv) = _
      rw [h3, encrypt_fst, hbi, List.length_cons, List.replicate_succ]

end lighting

namespace lighting

/-- Claim C2 (as stated, refuted). From `seq = 2^32 - 1` two calls of `encrypt` leave
`seq = 1`, not `2^32 - 1 + 2`: the counter is a `uint32_t` and wraps. And among
`2^32 + 1` consecutive calls two use the same sequence value. -/
theorem C2_counterexample :
    (encryptAll toyCrypto { sampleState with seq := 4294967295 } [[1], [2]]).1.seq = 1
    ∧ (encryptAll toyCrypto { sampleState with seq := 4294967295 } [[1], [2]]).1.seq
        ≠ 4294967295 + 2
    ∧ ¬ ((encryptAll toyCrypto sampleState (List.replicate (2 ^ 32 + 1) [])).2.map
        (fun r => r.1.seq)).Nodup := by
  refine ⟨by decide, by decide, ?_⟩
  intro h
  have hs : sampleState.seq < 2 ^ 32 := by decide
  rw [(encryptAll_seq toyCrypto _ sampleState hs).2.1, List.length_replicate] at h
  have hinj := List.inj_on_of_nodup_map h (x := 0) (y := 2 ^ 32)
    (List.mem_range.2 (by norm_num)) (List.mem_range.2 (by norm_num))
    (by show (sampleState.seq + 0 + 1) % 2 ^ 32 = (sampleState.seq + 2 ^ 32 + 1) % 2 ^ 32; omega)
  exact absurd hinj (by norm_num)

/-- The sequence values of consecutive calls of `encrypt`: the final one, the one each
call leaves, and their distinctness among up to `2^32` calls. -/
theorem encryptAll_seq_modular (c : Crypto) (s : lighting) (ps : List (List Nat))
    (hS : s.seq < 2 ^ 32) :
    (encryptAll c s ps).1.seq = (s.seq + ps.length) % 2 ^ 32
    ∧ (encryptAll c s ps).2.map (fun r => r.1.seq)
      = (List.range ps.length).map (fun i => (s.seq + i + 1) % 2 ^ 32)
    ∧ (s.seq + ps.length < 2 ^ 32 → (encryptAll c s ps).1.seq = s.seq + ps.length)
    ∧ (ps.length ≤ 2 ^ 32 →
        ((encryptAll c s ps).2.map (fun r => r.1.seq)).Nodup
        ∧ ((encryptAll c s ps).2.map (fun r => r.1.iv_seq)).Nodup) := by
  obtain ⟨h1, h2, h3⟩ := encryptAll_seq c ps s hS
  refine ⟨h1, h2, ?_, ?_⟩
  · intro hlt
    rw [h1, Nat.mod_eq_of_lt hlt]
  · intro hN
    have hnd : ((encryptAll c s ps).2.map (fun r => r.1.seq)).Nodup := by
      rw [h2]
      refine List.Nodup.map_on ?_ (List.nodup_range _)
      intro i hi j hj hij
      rw [List.mem_range] at hi hj
      omega
    refine ⟨hnd, ?_⟩
    refine List.Nodup.map_on ?_ hnd.of_map
    intro x hx y hy hxy
    have hxi : x.1.iv = s.iv :=
      List.eq_of_mem_replicate (h3 ▸ List.mem_map_of_mem (fun r : lighting × Outcome (List Nat) => r.1.iv) hx)
    have hyi : y.1.iv = s.iv :=
      List.eq_of_mem_replicate (h3 ▸ List.mem_map_of_mem (fun r : lighting × Outcome (List Nat) => r.1.iv) hy)
    have hxs : x.1.seq < 2 ^ 32 := by
      have := List.mem_map_of_mem (fun r : lighting × Outcome (List Nat) => r.1.seq) hx
      rw [h2, List.mem_map] at this
      obtain ⟨i, _, hi⟩ := this
      simp only at hi
      omega
    have hys : y.1.seq < 2 ^ 32 := by
      have := List.mem_map_of_mem (fun r : lighting × Outcome (List Nat) => r.1.seq) hy
      rw [h2, List.mem_map] at this
      obtain ⟨i, _, hi⟩ := this
      simp only at hi
      omega
    have hbe : BE32 x.1.seq = BE32 y.1.seq := by
      have e : x.1.iv ++ x.1.seq_to_bytes = y.1.iv ++ y.1.seq_to_bytes := hxy
      rw [hxi, hyi, seq_to_bytes_eq_BE32, seq_to_bytes_eq_BE32] at e
      exact List.append_cancel_left e
    have hseq : x.1.seq = y.1.seq := by
      have := BE32_injective _ _ hbe
      omega
    exact List.inj_on_of_nodup_map hnd hx hy hseq

end lighting

namespace lighting

/-- The shift-and-or expression of `encryptionSetup` reads four bytes big-endian. -/
theorem shift_or_eq (a b c d : Nat) (ha : a < 256) (hb : b < 256) (hc : c < 256) (hd : d < 256) :
    ((a <<< 24) ||| (b <<< 16) ||| (c <<< 8) ||| d) % 2 ^ 32
      = a * 2 ^ 24 + b * 2 ^ 16 + c * 2 ^ 8 + d := by
  simp only [Nat.shiftLeft_eq]
  have h1 : a * 2 ^ 24 ||| b * 2 ^ 16 = 2 ^ 16 * (a * 2 ^ 8 + b) := by
    have := Nat.mul_add_lt_is_or (i := 24) (b := b * 2 ^ 16) (by omega) a
    rw [Nat.mul_comm (2 ^ 24) a] at this
    rw [← this]; omega
  have h2 : 2 ^ 16 * (a * 2 ^ 8 + b) ||| c * 2 ^ 8 = 2 ^ 8 * (a * 2 ^ 16 + b * 2 ^ 8 + c) := by
    have := Nat.mul_add_lt_is_or (i := 16) (b := c * 2 ^ 8) (by omega) (a * 2 ^ 8 + b)
    rw [← this]; omega
  have h3 : 2 ^ 8 * (a * 2 ^ 16 + b * 2 ^ 8 + c) ||| d
      = a * 2 ^ 24 + b * 2 ^ 16 + c * 2 ^ 8 + d := by
    have := Nat.mul_add_lt_is_or (i := 8) (b := d) (by omega) (a * 2 ^ 16 + b * 2 ^ 8 + c)
    rw [← this]; omega
  rw [h1, h2, h3]
  omega

theorem getD_lt_of_forall (l : List Nat) (h : ∀ b ∈ l, b < 256) (i : Nat) : l.getD i 0 < 256 := by
  rw [List.getD_eq_getElem?_getD]
  cases hi : l[i]? with
  | none => simp
  | some b => exact h b (List.getElem?_mem hi)

theorem drop28 (l : List Nat) (h : l.length = 32) :
    l.drop 28 = [l.getD 28 0, l.getD 29 0, l.getD 30 0, l.getD 31 0] := by
  have e : ∀ i, (hi : i < l.length) → l.getD i 0 = l[i] := by
    intro i hi
    rw [List.getD_eq_getElem?_getD, List.getElem?_eq_getElem hi]; rfl
  rw [List.drop_eq_getElem_cons (by omega : 28 < l.length),
    List.drop_eq_getElem_cons (by omega : 29 < l.length),
    List.drop_eq_getElem_cons (by omega : 30 < l.length),
    List.drop_eq_getElem_cons (by omega : 31 < l.length),
    List.drop_of_length_le (by omega), e 28 (by omega), e 29 (by omega), e 30 (by omega),
    e 31 (by omega)]

/-- What `encryptionSetup` stores, in terms of `SHA256Hash`. -/
theorem encryptionSetup_derivation (c : Crypto) (s : lighting) :
    (encryptionSetup c s).key = (SHA256Hash c (ascii "lsk" ++ s.localHash)).take 16
    ∧ (encryptionSetup c s).sig = (SHA256Hash c (ascii "ldk" ++ s.localHash)).take 28
    ∧ (encryptionSetup c s).iv = (SHA256Hash c (ascii "iv" ++ s.localHash)).take 12
    ∧ (encryptionSetup c s).seq
      = (SHA256Hash c (ascii "iv" ++ s.localHash)).getD 28 0 * 2 ^ 24
        + (SHA256Hash c (ascii "iv" ++ s.localHash)).getD 29 0 * 2 ^ 16
        + (SHA256Hash c (ascii "iv" ++ s.localHash)).getD 30 0 * 2 ^ 8
        + (SHA256Hash c (ascii "iv" ++ s.localHash)).getD 31 0
    ∧ BE32 (encryptionSetup c s).seq = (SHA256Hash c (ascii "iv" ++ s.localHash)).drop 28
    ∧ (encryptionSetup c s).key.length = 16
    ∧ (encryptionSetup c s).sig.length = 28
    ∧ (encryptionSetup c s).iv.length = 12
    ∧ (encryptionSetup c s).seq < 2 ^ 32
    ∧ ∀ s2 : lighting, s2.localHash = s.localHash →
        (encryptionSetup c s2).key = (encryptionSetup c s).key
        ∧ (encryptionSetup c s2).sig = (encryptionSetup c s).sig
        ∧ (encryptionSetup c s2).iv = (encryptionSetup c s).iv
        ∧ (encryptionSetup c s2).seq = (encryptionSetup c s).seq := by
  have hlsk : ascii "lsk" = ['l'.toNat, 's'.toNat, 'k'.toNat] := rfl
  have hldk : ascii "ldk" = ['l'.toNat, 'd'.toNat, 'k'.toNat] := rfl
  have hiv : ascii "iv" = ['i'.toNat, 'v'.toNat] := rfl
  have hlen : ∀ d, (SHA256Hash c d).length = 32 := c.sha256_size
  have hbyte : ∀ d i, (SHA256Hash c d).getD i 0 < 256 :=
    fun d i => getD_lt_of_forall _ (c.sha256_byte d) i
  have hseq : (encryptionSetup c s).seq
      = (SHA256Hash c (ascii "iv" ++ s.localHash)).getD 28 0 * 2 ^ 24
        + (SHA256Hash c (ascii "iv" ++ s.localHash)).getD 29 0 * 2 ^ 16
        + (SHA256Hash c (ascii "iv" ++ s.localHash)).getD 30 0 * 2 ^ 8
        + (SHA256Hash c (ascii "iv" ++ s.localHash)).getD 31 0 := by
    rw [← shift_or_eq _ _ _ _ (hbyte _ 28) (hbyte _ 29) (hbyte _ 30) (hbyte _ 31), hiv]
    show ((((SHA256Hash c _).getD ((SHA256Hash c _).length - 4) 0 <<< 24)
      ||| ((SHA256Hash c _).getD ((SHA256Hash c _).length - 3) 0 <<< 16)
      ||| ((SHA256Hash c _).getD ((SHA256Hash c _).length - 2) 0 <<< 8)
      ||| (SHA256Hash c _).getD ((SHA256Hash c _).length - 1) 0) % 2 ^ 32) = _
    rw [hlen]
  refine ⟨by rw [hlsk]; rfl, by rw [hldk]; rfl, by rw [hiv]; rfl, hseq, ?_, ?_, ?_, ?_, ?_, ?_⟩
  · rw [hseq, drop28 _ (hlen _)]
    have h28 := hbyte (ascii "iv" ++ s.localHash) 28
    have h29 := hbyte (ascii "iv" ++ s.localHash) 29
    have h30 := hbyte (ascii "iv" ++ s.localHash) 30
    have h31 := hbyte (ascii "iv" ++ s.localHash) 31
    simp only [BE32, List.cons.injEq, and_true]
    omega
  · show ((SHA256Hash c _).take 16).length = 16
    rw [List.length_take, hlen]; rfl
  · show ((SHA256Hash c _).take 28).length = 28
    rw [List.length_take, hlen]; rfl
  · show ((SHA256Hash c _).take 12).length = 12
    rw [List.length_take, hlen]; rfl
  · rw [hseq]
    have h28 := hbyte (ascii "iv" ++ s.localHash) 28
    have h29 := hbyte (ascii "iv" ++ s.localHash) 29
    have h30 := hbyte (ascii "iv" ++ s.localHash) 30
    have h31 := hbyte (ascii "iv" ++ s.localHash) 31
    omega
  · intro s2 h2
    simp only [encryptionSetup, h2]
    exact ⟨trivial, trivial, trivial, trivial⟩

/-- Claim C3. Key derivation: `encryptionSetup` sets `key` to the first 16 bytes of
SHA256("lsk" ++ localHash), `sig` to the first 28 bytes of SHA256("ldk" ++ localHash),
`iv` to the first 12 bytes of D = SHA256("iv" ++ localHash) and `seq` to the big-endian
unsigned 32-bit reading of bytes 28..31 of the same D; the lengths are 16, 28 and 12,
`seq` is a 32-bit value, and the four depend on `localHash` alone.  SHA256 is the
library digest `c.sha256`. -/
theorem C3_key_derivation (c : Crypto) (s : lighting) :
    (encryptionSetup c s).key = (c.sha256 (ascii "lsk" ++ s.localHash)).take 16
    ∧ (encryptionSetup c s).sig = (c.sha256 (ascii "ldk" ++ s.localHash)).take 28
    ∧ (encryptionSetup c s).iv = (c.sha256 (ascii "iv" ++ s.localHash)).take 12
    ∧ (encryptionSetup c s).seq
      = (c.sha256 (ascii "iv" ++ s.localHash)).getD 28 0 * 2 ^ 24
        + (c.sha256 (ascii "iv" ++ s.localHash)).getD 29 0 * 2 ^ 16
        + (c.sha256 (ascii "iv" ++ s.localHash)).getD 30 0 * 2 ^ 8
        + (c.sha256 (ascii "iv" ++ s.localHash)).getD 31 0
    ∧ BE32 (encryptionSetup c s).seq = (c.sha256 (ascii "iv" ++ s.localHash)).drop 28
    ∧ (encryptionSetup c s).key.length = 16
    ∧ (encryptionSetup c s).sig.length = 28
    ∧ (encryptionSetup c s).iv.length = 12
    ∧ (encryptionSetup c s).seq < 2 ^ 32
    ∧ ∀ s2 : lighting, s2.localHash = s.localHash →
        (encryptionSetup c s2).key = (encryptionSetup c s).key
        ∧ (encryptionSetup c s2).sig = (encryptionSetup c s).sig
        ∧ (encryptionSetup c s2).iv = (encryptionSetup c s).iv
        ∧ (encryptionSetup c s2).seq = (encryptionSetup c s).seq :=
  encryptionSetup_derivation c s

/-- Witness of C3: the key derived from an empty `localHash`, and two objects that
differ in every field but `localHash` deriving the same key and seq. -/
theorem C3_key_derivation_witness :
    (encryptionSetup toyCrypto freshState).key = (toyCrypto.sha256 (ascii "lsk" ++ [])).take 16
    ∧ (encryptionSetup toyCrypto freshState).key.length = 16
    ∧ (encryptionSetup toyCrypto { sampleState with localHash := [] }).key
      = (encryptionSetup toyCrypto freshState).key
    ∧ (encryptionSetup toyCrypto { sampleState with localHash := [] }).seq
      = (encryptionSetup toyCrypto freshState).seq :=
  have h := C3_key_derivation toyCrypto freshState
  have h2 := h.2.2.2.2.2.2.2.2.2 { sampleState with localHash := [] } rfl
  ⟨h.1, h.2.2.2.2.2.1, h2.1, h2.2.2.2⟩

end lighting

/-- Cutting a buffer of `n` whole blocks into blocks loses nothing. -/
theorem blocks16_flatten : ∀ (n : Nat) (l : List Nat), l.length = 16 * n → (blocks16 n l).flatten = l
  | 0, l, h => by
    have : l = [] := List.eq_nil_of_length_eq_zero (by omega)
    subst this; rfl
  | n + 1, l, h => by
    have ih := blocks16_flatten n (l.drop 16) (by simp; omega)
    simp only [blocks16, List.flatten_cons, ih, List.take_append_drop]

namespace lighting

/-- On whole blocks the CBC loop of `encrypt` computes the reference chaining. -/
theorem encryptLoop_eq_cbcEncrypt (c : Crypto) (key : List Nat) :
    ∀ (n : Nat) (buf iv : List Nat), buf.length = 16 * n → iv.length = 16 →
      encryptLoop c key n buf iv
        = .returns (cbcEncrypt (c.encryptBlock key) iv (blocks16 n buf)).flatten
  | 0, _, _, _, _ => rfl
  | n + 1, buf, iv, hb, hi => by
    have hlt : ¬ buf.length < 16 := by omega
    have htake : (buf.take 16).length = 16 := by simp; omega
    have hblk := xorBlock_length _ iv htake hi
    have hout := c.encryptBlock_size key _ hblk
    have ih := encryptLoop_eq_cbcEncrypt c key n (buf.drop 16)
      (c.encryptBlock key (xorBlock (buf.take 16) iv 16)) (by simp; omega) hout
    rw [xorBlock_eq_zipWith _ iv htake hi] at ih
    simp only [encryptLoop, if_neg hlt, blocks16, cbcEncrypt, List.flatten_cons,
      xorBlock_eq_zipWith _ iv htake hi, ih]

/-- The wire format of `encrypt`, in terms of `SHA256Hash`. -/
theorem encrypt_wire_format (c : Crypto) (s : lighting) (P : List Nat)
    (hiv : 12 ≤ s.iv.length) :
    ∃ tag ct, (encrypt c s P).2 = .returns (tag ++ ct)
      ∧ (encrypt c s P).1.seq = (s.seq + 1) % 2 ^ 32
      ∧ (encrypt c s P).1.seq_to_bytes = BE32 (encrypt c s P).1.seq
      ∧ tag = SHA256Hash c (s.sig ++ BE32 (encrypt c s P).1.seq ++ ct)
      ∧ tag.length = 32
      ∧ (tag ++ ct).take 32 = tag
      ∧ (tag ++ ct).drop 32 = ct := by
  obtain ⟨ct, _, _, henc⟩ := encrypt_shape c s P hiv
  have hsz : (SHA256Hash c (s.sig ++ BE32 (s.seq + 1) ++ ct)).length = 32 := c.sha256_size _
  have hseq : (encrypt c s P).1.seq = (s.seq + 1) % 2 ^ 32 := by rw [henc]; rfl
  refine ⟨SHA256Hash c (s.sig ++ BE32 (s.seq + 1) ++ ct), ct, by rw [henc], hseq,
    seq_to_bytes_eq_BE32 _, ?_, hsz, ?_, ?_⟩
  · rw [hseq, BE32_mod]
  · rw [← hsz, List.take_left]
  · rw [← hsz, List.drop_left]

/-- Claim C4. Seal wire format: in a state whose `iv` has its 12 bytes, `encrypt` returns
`tag ++ ciphertext` with `tag = SHA256(sig ++ BE32(seq') ++ ciphertext)`, where `seq'` is
the value of `seq` after the increment done by this call; the tag has 32 bytes, so it
is the first 32 bytes of the output and the ciphertext is the rest.  SHA256 is the
library digest `c.sha256`. -/
theorem C4_seal_wire_format (c : Crypto) (s : lighting) (P : List Nat)
    (hiv : 12 ≤ s.iv.length) :
    ∃ tag ct, (encrypt c s P).2 = .returns (tag ++ ct)
      ∧ (encrypt c s P).1.seq = (s.seq + 1) % 2 ^ 32
      ∧ (encrypt c s P).1.seq_to_bytes = BE32 (encrypt c s P).1.seq
      ∧ tag = c.sha256 (s.sig ++ BE32 (encrypt c s P).1.seq ++ ct)
      ∧ tag.length = 32
      ∧ (tag ++ ct).take 32 = tag
      ∧ (tag ++ ct).drop 32 = ct :=
  encrypt_wire_format c s P hiv

/-- Witness of C4: sealing "hi" in `sampleState`. -/
theorem C4_seal_wire_format_witness :
    ∃ tag ct, (encrypt toyCrypto sampleState [104, 105]).2 = .returns (tag ++ ct)
      ∧ (encrypt toyCrypto sampleState [104, 105]).1.seq = 42
      ∧ tag = toyCrypto.sha256 (sampleState.sig ++ BE32 42 ++ ct)
      ∧ tag.length = 32 := by
  obtain ⟨tag, ct, h1, h2, _, h4, h5, _, _⟩ :=
    C4_seal_wire_format toyCrypto sampleState [104, 105] (by decide)
  exact ⟨tag, ct, h1, h2, by rw [h4, h2]; rfl, h5⟩

/-- Claim C5. The ciphertext of a sealed message is CBC with the pre-incremented counter
nonce: in a state with a 12-byte `iv` and sequence `S`, the ciphertext part of
`encrypt(P)` is the reference CBC encryption of the blocks of `pkcs7_pad(P, 16)` under
`key`, chained from `iv ++ BE32(S + 1)`; the nonce is built from `S + 1`, which the
call also leaves in `seq`. -/
theorem C5_seal_is_cbc (c : Crypto) (s : lighting) (P : List Nat) (hiv : s.iv.length = 12) :
    ∃ out, (encrypt c s P).2 = .returns out
      ∧ out.drop 32
        = (cbcEncrypt (c.encryptBlock s.key) (s.iv ++ BE32 (s.seq + 1))
            (blocks16 ((pkcs7_pad P 16).length / 16) (pkcs7_pad P 16))).flatten
      ∧ (blocks16 ((pkcs7_pad P 16).length / 16) (pkcs7_pad P 16)).flatten = pkcs7_pad P 16
      ∧ (encrypt c s P).1.iv_seq = s.iv ++ BE32 (s.seq + 1)
      ∧ (encrypt c s P).1.seq = (s.seq + 1) % 2 ^ 32 := by
  obtain ⟨ct, hct, _, henc⟩ := encrypt_shape c s P (by omega)
  have hsz : (SHA256Hash c (s.sig ++ BE32 (s.seq + 1) ++ ct)).length = 32 := c.sha256_size _
  have hnonce : (s.iv ++ BE32 (s.seq + 1)).take 16 = s.iv ++ BE32 (s.seq + 1) :=
    List.take_of_length_le (by simp [BE32, hiv])
  have hn : (pkcs7_pad P 16).length / 16 = P.length / 16 + 1 := by
    rw [pkcs7_pad_length]; omega
  have hcbc := encryptLoop_eq_cbcEncrypt c s.key (P.length / 16 + 1) (pkcs7_pad P 16)
    (s.iv ++ BE32 (s.seq + 1)) (pkcs7_pad_length P) (by simp [BE32, hiv])
  rw [hnonce, hcbc, Outcome.returns.injEq] at hct
  refine ⟨_, by rw [henc], ?_, ?_, ?_, by rw [henc]; rfl⟩
  · rw [← hsz, List.drop_left, hn, hct]
  · rw [hn]
    exact blocks16_flatten _ _ (pkcs7_pad_length P)
  · rw [henc]
    show s.bump.iv ++ s.bump.seq_to_bytes = _
    rw [bump_seq_to_bytes]; rfl

end lighting

namespace lighting

/-- In a state with a 12-byte `iv`, `encrypt` returns the reference sealing of the
payload with the incremented sequence value. -/
theorem encrypt_eq_sealWith (c : Crypto) (s : lighting) (P : List Nat) (hiv : s.iv.length = 12) :
    encrypt c s P
      = (s.bump, .returns (sealWith c s.key s.sig s.iv ((s.seq + 1) % 2 ^ 32) P)) := by
  obtain ⟨ct, hct, _, henc⟩ := encrypt_shape c s P (by omega)
  have hnonce : (s.iv ++ BE32 (s.seq + 1)).take 16 = s.iv ++ BE32 (s.seq + 1) :=
    List.take_of_length_le (by simp [BE32, hiv])
  have hn : (pkcs7_pad P 16).length / 16 = P.length / 16 + 1 := by
    rw [pkcs7_pad_length]; omega
  have hcbc := encryptLoop_eq_cbcEncrypt c s.key (P.length / 16 + 1) (pkcs7_pad P 16)
    (s.iv ++ BE32 (s.seq + 1)) (pkcs7_pad_length P) (by simp [BE32, hiv])
  rw [hnonce, hcbc, Outcome.returns.injEq] at hct
  have hseal : sealWith c s.key s.sig s.iv ((s.seq + 1) % 2 ^ 32) P
      = c.sha256 (s.sig ++ BE32 (s.seq + 1) ++ ct) ++ ct := by
    simp only [sealWith]
    rw [BE32_mod, ← pkcs7_pad_eq P, hn, hct]
  rw [henc, hseal]
  rfl

/-- What consecutive calls of `encrypt` return: the reference sealing of each payload
with the sequence value of its call. -/
theorem encryptAll_outputs (c : Crypto) (key sig iv : List Nat) (hiv : iv.length = 12)
    (base : Nat) : ∀ (ps : List (List Nat)) (s : lighting) (k : Nat),
    s.key = key → s.sig = sig → s.iv = iv → s.seq % 2 ^ 32 = (base + k) % 2 ^ 32 →
    (encryptAll c s ps).2.map (fun r => r.2)
      = (ps.enumFrom k).map
          (fun ip => Outcome.returns (sealWith c key sig iv ((base + ip.1 + 1) % 2 ^ 32) ip.2))
  | [], _, _, _, _, _, _ => rfl
  | p :: ps, s, k, hk, hs, hi, hq => by
    have henc := encrypt_eq_sealWith c s p (by rw [hi]; exact hiv)
    have e : (encryptAll c s (p :: ps)).2
        = encrypt c s p :: (encryptAll c (encrypt c s p).1 ps).2 := rfl
    have hb : s.bump.seq % 2 ^ 32 = (base + (k + 1)) % 2 ^ 32 := by
      show ((s.seq + 1) % 2 ^ 32) % 2 ^ 32 = _
      omega
    have ih := encryptAll_outputs c key sig iv hiv base ps s.bump (k + 1)
      (by rw [← hk]; rfl) (by rw [← hs]; rfl) (by rw [← hi]; rfl) hb
    have hsq : (s.seq + 1) % 2 ^ 32 = (base + k + 1) % 2 ^ 32 := by omega
    rw [e, List.map_cons, encrypt_fst, ih, henc, hk, hs, hi, hsq]
    rfl

/-- Claim C2 (amended). Starting from a 32-bit sequence value `S` in a state with a
12-byte `iv`, after `N` calls of `encrypt` the `seq` field is `(S + N) mod 2^32`; the
call number `i` (from 0) leaves `(S + i + 1) mod 2^32` in `seq` and returns the sealing
of its payload with that value: its nonce is `iv ++ BE32((S + i + 1) mod 2^32)` and its
tag is the digest of `sig ++ BE32((S + i + 1) mod 2^32) ++ ciphertext`.  So
`seq = S + N` as long as `S + N < 2^32`, and among up to `2^32` consecutive calls no two
use the same sequence value or the same nonce. -/
theorem C2_sequence_modular (c : Crypto) (s : lighting) (ps : List (List Nat))
    (hS : s.seq < 2 ^ 32) (hiv : s.iv.length = 12) :
    (encryptAll c s ps).1.seq = (s.seq + ps.length) % 2 ^ 32
    ∧ (encryptAll c s ps).2.map (fun r => r.1.seq)
      = (List.range ps.length).map (fun i => (s.seq + i + 1) % 2 ^ 32)
    ∧ (encryptAll c s ps).2.map (fun r => r.2)
      = ps.enum.map (fun ip =>
          Outcome.returns (sealWith c s.key s.sig s.iv ((s.seq + ip.1 + 1) % 2 ^ 32) ip.2))
    ∧ (s.seq + ps.length < 2 ^ 32 → (encryptAll c s ps).1.seq = s.seq + ps.length)
    ∧ (ps.length ≤ 2 ^ 32 →
        ((encryptAll c s ps).2.map (fun r => r.1.seq)).Nodup
        ∧ ((encryptAll c s ps).2.map (fun r => r.1.iv_seq)).Nodup
        ∧ ((List.range ps.length).map
            (fun i => s.iv ++ BE32 ((s.seq + i + 1) % 2 ^ 32))).Nodup) := by
  obtain ⟨h1, h2, h3, h4⟩ := encryptAll_seq_modular c s ps hS
  refine ⟨h1, h2, encryptAll_outputs c s.key s.sig s.iv hiv s.seq ps s 0 rfl rfl rfl rfl,
    h3, fun hN => ⟨(h4 hN).1, (h4 hN).2, ?_⟩⟩
  refine List.Nodup.map_on ?_ (List.nodup_range _)
  intro i hi j hj hij
  rw [List.mem_range] at hi hj
  have := BE32_injective _ _ (List.append_cancel_left hij)
  omega

/-- Witness of C2 (amended): three calls from `seq = 41` in `sampleState`; the second
returns the sealing of the empty payload with the sequence value 43. -/
theorem C2_sequence_modular_witness :
    (encryptAll toyCrypto sampleState [[1], [], [2, 3]]).1.seq = 44
    ∧ (encryptAll toyCrypto sampleState [[1], [], [2, 3]]).2.map (fun r => r.1.seq)
      = [42, 43, 44]
    ∧ (encryptAll toyCrypto sampleState [[1], [], [2, 3]]).2.map (fun r => r.2)
      = [.returns (sealWith toyCrypto sampleState.key sampleState.sig sampleState.iv 42 [1]),
         .returns (sealWith toyCrypto sampleState.key sampleState.sig sampleState.iv 43 []),
         .returns (sealWith toyCrypto sampleState.key sampleState.sig sampleState.iv 44 [2, 3])]
    ∧ ((List.range 3).map (fun i => sampleState.iv ++ BE32 ((41 + i + 1) % 2 ^ 32))).Nodup := by
  have h := C2_sequence_modular toyCrypto sampleState [[1], [], [2, 3]] (by decide) (by decide)
  exact ⟨h.2.2.2.1 (by decide), h.2.1, h.2.2.1, (h.2.2.2.2 (by decide)).2.2⟩

/-- Witness of C5: the first message sealed after `encryptionSetup` is chained from
`iv ++ BE32(initial sequence + 1)`. -/
theorem C5_seal_is_cbc_witness :
    ∃ out, (encrypt toyCrypto (encryptionSetup toyCrypto freshState) [104, 105]).2 = .returns out
      ∧ out.drop 32
        = (cbcEncrypt (toyCrypto.encryptBlock (encryptionSetup toyCrypto freshState).key)
            ((encryptionSetup toyCrypto freshState).iv
              ++ BE32 ((encryptionSetup toyCrypto freshState).seq + 1))
            (blocks16 ((pkcs7_pad [104, 105] 16).length / 16) (pkcs7_pad [104, 105] 16))).flatten :=
  match C5_seal_is_cbc toyCrypto (encryptionSetup toyCrypto freshState) [104, 105]
    (by decide) with
  | ⟨out, h1, h2, _⟩ => ⟨out, h1, h2⟩

/-- Claim C6. Strict PKCS7 padding: `pkcs7_pad(d, 16)` is `d` followed by `k` copies of the
byte `k`, where `k = 16 - (|d| mod 16)`; so `1 <= k <= 16`, the length of the result is
a positive multiple of 16, and when `|d|` is a multiple of 16 (zero included) a whole
block of sixteen bytes 0x10 is appended. -/
theorem C6_pkcs7_pad_strict (d : List Nat) :
    pkcs7_pad d 16 = d ++ List.replicate (16 - d.length % 16) (16 - d.length % 16)
    ∧ 1 ≤ 16 - d.length % 16
    ∧ 16 - d.length % 16 ≤ 16
    ∧ 0 < (pkcs7_pad d 16).length
    ∧ (pkcs7_pad d 16).length % 16 = 0
    ∧ (d.length % 16 = 0 → pkcs7_pad d 16 = d ++ List.replicate 16 0x10) := by
  refine ⟨pkcs7_pad_eq d, by omega, by omega, ?_, ?_, ?_⟩
  · rw [pkcs7_pad_length]; omega
  · rw [pkcs7_pad_length]; omega
  · intro h
    rw [pkcs7_pad_eq, h]

/-- Witness of C6: the empty payload and a payload of one whole block each get a whole
block of padding. -/
theorem C6_pkcs7_pad_strict_witness :
    pkcs7_pad [] 16 = List.replicate 16 0x10
    ∧ pkcs7_pad (List.replicate 16 7) 16 = List.replicate 16 7 ++ List.replicate 16 0x10 :=
  ⟨(C6_pkcs7_pad_strict []).2.2.2.2.2 (by decide),
   (C6_pkcs7_pad_strict (List.replicate 16 7)).2.2.2.2.2 (by decide)⟩

/-- Claim C7. Shape of a sealed message: for a payload of `n` bytes, in a state whose `iv`
has its 12 bytes, `encrypt` returns `32 + 16 * (n / 16 + 1)` bytes; the ciphertext part
(after the 32-byte tag) is a non-empty multiple of 16 bytes, and when `n` is a multiple
of 16 it is exactly one 16-byte block longer than the payload. -/
theorem C7_sealed_length (c : Crypto) (s : lighting) (P : List Nat) (hiv : 12 ≤ s.iv.length) :
    ∃ out, (encrypt c s P).2 = .returns out
      ∧ out.length = 32 + 16 * (P.length / 16 + 1)
      ∧ 0 < (out.drop 32).length
      ∧ (out.drop 32).length % 16 = 0
      ∧ (P.length % 16 = 0 → (out.drop 32).length = P.length + 16) := by
  obtain ⟨ct, _, hlen, henc⟩ := encrypt_shape c s P hiv
  have hsz : (SHA256Hash c (s.sig ++ BE32 (s.seq + 1) ++ ct)).length = 32 := c.sha256_size _
  have hdrop : (SHA256Hash c (s.sig ++ BE32 (s.seq + 1) ++ ct) ++ ct).drop 32 = ct := by
    rw [← hsz, List.drop_left]
  refine ⟨_, by rw [henc], ?_, ?_, ?_, ?_⟩
  · rw [List.length_append, hsz, hlen]
  · rw [hdrop, hlen]; omega
  · rw [hdrop, hlen]; omega
  · intro h
    rw [hdrop, hlen]; omega

/-- Witness of C7: a payload of exactly 16 bytes is sealed into 32 + 32 bytes. -/
theorem C7_sealed_length_witness :
    ∃ out, (encrypt toyCrypto sampleState (List.replicate 16 65)).2 = .returns out
      ∧ out.length = 64 ∧ (out.drop 32).length = 16 + 16 :=
  match C7_sealed_length toyCrypto sampleState (List.replicate 16 65) (by decide) with
  | ⟨out, h1, h2, _, _, h5⟩ => ⟨out, h1, h2, h5 (by decide)⟩

end lighting

namespace lighting

/-- When the buffer does not end on a block boundary, the CBC loop of `decrypt` runs
into the end of the buffer. -/
theorem decryptLoop_misaligned (c : Crypto) (key : List Nat) :
    ∀ (n : Nat) (buf iv : List Nat), buf.length % 16 ≠ 0 → n = (buf.length + 15) / 16 →
      decryptLoop c key n buf iv = .fault .outOfBounds
  | 0, buf, _, h, hn => by omega
  | n + 1, buf, iv, h, hn => by
    by_cases hlt : buf.length < 16
    · simp only [decryptLoop, if_pos hlt]
    · have ih := decryptLoop_misaligned c key n (buf.drop 16) (buf.take 16)
        (by rw [List.length_drop]; omega) (by rw [List.length_drop]; omega)
      simp only [decryptLoop, if_neg hlt, ih]

/-- On a buffer of `n` whole blocks the CBC loop of `decrypt` returns `n` blocks. -/
theorem decryptLoop_returns (c : Crypto) (key : List Nat) :
    ∀ (n : Nat) (buf iv : List Nat), buf.length = 16 * n → iv.length = 16 →
      ∃ out, decryptLoop c key n buf iv = .returns out ∧ out.length = 16 * n
  | 0, _, _, _, _ => ⟨[], rfl, rfl⟩
  | n + 1, buf, iv, hb, hi => by
    have hlt : ¬ buf.length < 16 := by omega
    have htake : (buf.take 16).length = 16 := by simp; omega
    have hdec := c.decryptBlock_size key _ htake
    have hx := xorBlock_length _ iv hdec hi
    obtain ⟨out, hout, hlen⟩ := decryptLoop_returns c key n (buf.drop 16) (buf.take 16)
      (by simp; omega) htake
    refine ⟨xorBlock (c.decryptBlock key (buf.take 16)) iv 16 ++ out, ?_, ?_⟩
    · simp only [decryptLoop, if_neg hlt, hout]
    · rw [List.length_append, hx, hlen]; omega

/-- On every input shorter than 32 + 16 bytes, and on every input whose length minus 32
is not a multiple of 16, a call of `decrypt` reaches undefined behaviour: `back()` of
the empty buffer when the input has exactly 32 bytes (and the nonce its 16), an access
outside a buffer otherwise.  The source fixes neither a failure nor a returned value
there; a build may stop or run on. -/
theorem decrypt_undefined_on_short_or_misaligned (c : Crypto) (s : lighting) (e : List Nat)
    (h : e.length < 32 + 16 ∨ (e.length - 32) % 16 ≠ 0) :
    decrypt c s e
      = (s, .fault (if e.length = 32 ∧ 12 ≤ s.iv.length then .backOfEmpty else .outOfBounds)) := by
  have hivs : s.iv_seq.length = s.iv.length + 4 := iv_seq_length s
  by_cases h1 : e.length < HASH_SIZE
  · have hne : ¬ (e.length = 32 ∧ 12 ≤ s.iv.length) := by
      simp only [HASH_SIZE] at h1; omega
    simp only [decrypt, decryptedBytes, if_pos h1, if_neg hne]
  · have h1' : 32 ≤ e.length := by simp only [HASH_SIZE] at h1; omega
    by_cases h2 : s.iv_seq.length < 16
    · have hne : ¬ (e.length = 32 ∧ 12 ≤ s.iv.length) := by omega
      simp only [decrypt, decryptedBytes, if_neg h1, if_pos h2, if_neg hne]
    · by_cases h3 : e.length = 32
      · have hyes : e.length = 32 ∧ 12 ≤ s.iv.length := ⟨h3, by omega⟩
        have hnil : e.drop HASH_SIZE = [] := List.drop_of_length_le (by simp [HASH_SIZE, h3])
        simp only [decrypt, decryptedBytes, if_neg h1, if_neg h2, if_pos hyes, hnil]
        rfl
      · have hne : ¬ (e.length = 32 ∧ 12 ≤ s.iv.length) := fun hh => h3 hh.1
        have hmis : (e.drop HASH_SIZE).length % 16 ≠ 0 := by
          rw [List.length_drop]; simp only [HASH_SIZE]; omega
        simp only [decrypt, decryptedBytes, if_neg h1, if_neg h2, if_neg hne,
          decryptLoop_misaligned c s.key _ _ _ hmis rfl]

/-- Claim C9 (as stated, refuted). A well-sized input (32 + 16 bytes) whose decrypted last
byte, the declared pad length, is zero: `decrypt` does not fail, it returns the whole
decrypted buffer of 16 bytes. -/
theorem C9_counterexample :
    decryptedBytes toyCrypto sampleState (List.replicate 32 0 ++ List.replicate 14 0 ++ [41, 0])
      = .returns [1, 2, 3, 4, 5, 6, 7, 8, 9, 10, 11, 12, 0, 0, 0, 0]
    ∧ [1, 2, 3, 4, 5, 6, 7, 8, 9, 10, 11, 12, 0, 0, 0, 0].getLast? = some 0
    ∧ decrypt toyCrypto sampleState (List.replicate 32 0 ++ List.replicate 14 0 ++ [41, 0])
      = (sampleState, .returns [1, 2, 3, 4, 5, 6, 7, 8, 9, 10, 11, 12, 0, 0, 0, 0]) := by
  decide

/-- Claim C9 (amended). `decrypt` validates no padding and reports no error.  For every
well-sized input (at least 32 + 16 bytes, a multiple of 16 after the tag) in a state
whose `iv` has its 12 bytes, the loop yields a decrypted buffer of the size of the
ciphertext, whose last byte `pad` is taken as the pad length: when `pad` does not
exceed the buffer length, zero included, `decrypt` returns the buffer with exactly
`pad` trailing bytes removed (the whole buffer for `pad = 0`); when it exceeds the
buffer length no plaintext is returned. -/
theorem C9_padding_unvalidated (c : Crypto) (s : lighting) (e : List Nat)
    (hiv : 12 ≤ s.iv.length) (hlen : 32 + 16 ≤ e.length) (hal : (e.length - 32) % 16 = 0) :
    ∃ buf pad, decryptedBytes c s e = .returns buf
      ∧ buf.length = e.length - 32
      ∧ buf.getLast? = some pad
      ∧ (pad ≤ buf.length → decrypt c s e = (s, .returns (buf.take (buf.length - pad))))
      ∧ (pad = 0 → decrypt c s e = (s, .returns buf))
      ∧ (buf.length < pad → decrypt c s e = (s, .fault .lengthError)) := by
  have h1 : ¬ e.length < HASH_SIZE := by simp only [HASH_SIZE]; omega
  have h2 : ¬ s.iv_seq.length < 16 := by rw [iv_seq_length]; omega
  have hcl : (e.drop HASH_SIZE).length = 16 * ((e.length - 32) / 16) := by
    rw [List.length_drop]; simp only [HASH_SIZE]; omega
  have hn : ((e.drop HASH_SIZE).length + 15) / 16 = (e.length - 32) / 16 := by omega
  obtain ⟨buf, hbuf, hbl⟩ := decryptLoop_returns c s.key ((e.length - 32) / 16)
    (e.drop HASH_SIZE) (s.iv_seq.take 16) hcl (by rw [List.length_take]; omega)
  have hdb : decryptedBytes c s e = .returns buf := by
    simp only [decryptedBytes, if_neg h1, if_neg h2, hn, hbuf]
  have hblen : buf.length = e.length - 32 := by omega
  have hne : buf ≠ [] := by
    intro h0; rw [h0] at hblen; simp at hblen; omega
  obtain ⟨pad, hpad⟩ : ∃ pad, buf.getLast? = some pad :=
    ⟨buf.getLast hne, List.getLast?_eq_getLast _ hne⟩
  have hle : pad ≤ buf.length → decrypt c s e = (s, .returns (buf.take (buf.length - pad))) := by
    intro hp
    have : ¬ buf.length < pad := by omega
    simp only [decrypt, hdb, removePadding, hpad, if_neg this]
  refine ⟨buf, pad, hdb, hblen, hpad, hle, ?_, ?_⟩
  · intro h0
    rw [hle (by omega), h0, Nat.sub_zero, List.take_length]
  · intro hp
    simp only [decrypt, hdb, removePadding, hpad, if_pos hp]

/-- Witness of C9 (amended): a well-sized input whose declared pad length is 3. -/
theorem C9_padding_unvalidated_witness :
    ∃ buf pad, decryptedBytes toyCrypto sampleState
        (List.replicate 32 0 ++ List.replicate 14 0 ++ [42, 0]) = .returns buf
      ∧ buf.length = 16
      ∧ buf.getLast? = some pad
      ∧ (pad ≤ buf.length → decrypt toyCrypto sampleState
          (List.replicate 32 0 ++ List.replicate 14 0 ++ [42, 0])
            = (sampleState, .returns (buf.take (buf.length - pad)))) :=
  match C9_padding_unvalidated toyCrypto sampleState
    (List.replicate 32 0 ++ List.replicate 14 0 ++ [42, 0]) (by decide) (by decide)
    (by decide) with
  | ⟨buf, pad, h1, h2, h3, h4, _, _⟩ => ⟨buf, pad, h1, h2, h3, h4⟩

end lighting

namespace lighting

/-- With any block cipher whose `decryptBlock` undoes `encryptBlock` (AES-128 included)
there is a well-sized input whose declared pad length is zero and which `decrypt`
accepts: a tag followed by the encryption of the nonce block itself.  It decrypts to
sixteen zero bytes, all of which are returned. -/
theorem decrypt_zero_padding_accepted (c : Crypto) (hinv : c.Inverse) (s : lighting)
    (hkey : s.key.length = 16) (hiv : s.iv.length = 12) (tag : List Nat)
    (htag : tag.length = 32) :
    decrypt c s
        (tag ++ c.encryptBlock s.key (xorBlock (List.replicate 16 0) (s.iv_seq.take 16) 16))
      = (s, .returns (List.replicate 16 0)) := by
  have hivl : (s.iv_seq.take 16).length = 16 := by
    rw [List.length_take, iv_seq_length]; omega
  have hx : (xorBlock (List.replicate 16 0) (s.iv_seq.take 16) 16).length = 16 :=
    xorBlock_length _ _ (by simp) hivl
  have hout := c.encryptBlock_size s.key _ hx
  have henc : encryptLoop c s.key 1 (List.replicate 16 0) (s.iv_seq.take 16)
      = .returns (c.encryptBlock s.key
          (xorBlock (List.replicate 16 0) (s.iv_seq.take 16) 16)) := by
    simp [encryptLoop]
  have hdec := decryptLoop_encryptLoop c hinv s.key hkey 1 (List.replicate 16 0)
    (s.iv_seq.take 16) _ (by simp) hivl henc
  generalize c.encryptBlock s.key (xorBlock (List.replicate 16 0) (s.iv_seq.take 16) 16)
    = ct at hout hdec
  have h1 : ¬ (tag ++ ct).length < HASH_SIZE := by
    rw [List.length_append, htag]; simp [HASH_SIZE]
  have hdrop : (tag ++ ct).drop HASH_SIZE = ct := by
    have h32 : HASH_SIZE = tag.length := htag.symm
    rw [h32, List.drop_left]
  have h2 : ¬ s.iv_seq.length < 16 := by rw [iv_seq_length]; omega
  have hn : (ct.length + 15) / 16 = 1 := by omega
  have hdb : decryptedBytes c s (tag ++ ct) = .returns (List.replicate 16 0) := by
    unfold decryptedBytes
    rw [if_neg h1, hdrop, if_neg h2, hn, hdec]
  simp only [decrypt, hdb]
  rfl

end lighting

namespace lighting

/-- A body whose first 16 bytes are all non-zero keeps them through `c_str()`. -/
theorem cstrBytes_take (b : List Nat) (hlen : 16 ≤ b.length) (hnz : ∀ x ∈ b.take 16, x ≠ 0) :
    16 ≤ (cstrBytes b).length ∧ (cstrBytes b).take 16 = b.take 16 := by
  have hsplit : cstrBytes b
      = b.take 16 ++ (b.drop 16).takeWhile (fun x => x != 0) := by
    unfold cstrBytes
    conv_lhs => rw [← List.take_append_drop 16 b]
    rw [List.takeWhile_append_of_pos]
    intro a ha
    simpa using hnz a ha
  have htl : (b.take 16).length = 16 := by rw [List.length_take]; omega
  constructor
  · rw [hsplit, List.length_append, htl]; omega
  · rw [hsplit, List.take_append_of_le_length (by omega), List.take_of_length_le (by omega)]

/-- Where the remote seed `R` (the first 16 bytes of the round-1 body) has no zero
byte, `handShake` sends SHA256(R ++ L ++ C) as the round-2 body and, when round 2 is
accepted, stores `L ++ R ++ C` as `localHash`. -/
theorem handShake_ordering (c : Crypto) (s : lighting) (L : List Nat) (r1 r2 : Response)
    (h1 : r1.code = 200) (hlen : 16 ≤ r1.body.length) (hnz : ∀ x ∈ r1.body.take 16, x ≠ 0) :
    (handShake c s L r1 r2).sent.map (fun r => r.body)
      = [L, SHA256Hash c (r1.body.take 16 ++ L ++ s.creds)]
    ∧ (r2.code = 200 →
        (handShake c s L r1 r2).result = .returns true
        ∧ (handShake c s L r1 r2).self.localHash = L ++ r1.body.take 16 ++ s.creds) := by
  obtain ⟨hl, ht⟩ := cstrBytes_take r1.body hlen hnz
  have hc1 : (!checkResponse r1.code) = false := by simp [checkResponse, h1]
  have hlt : ¬ (cstrBytes r1.body).length < 16 := by omega
  by_cases h2 : r2.code = 200
  · have hc2 : (!checkResponse r2.code) = false := by simp [checkResponse, h2]
    refine ⟨?_, fun _ => ⟨?_, ?_⟩⟩ <;> simp [handShake, hc1, hlt, hc2, ht]
  · have hc2 : (!checkResponse r2.code) = true := by simp [checkResponse, h2]
    refine ⟨?_, fun h => absurd h h2⟩
    simp [handShake, hc1, hlt, hc2, ht]

/-- Claim C10 (the code at a failing input). The device answers round 1 with the remote seed
`10 00 12 13 .. 1F`, which has a zero byte.  `handShake` takes the seed from the body
converted through `c_str()`, which ends at that zero byte: the 16-byte range it copies
lies past the end of the one-byte string, and no round-2 request carrying
SHA256(R ++ L ++ C) is made; `localHash` is not stored. -/
theorem C10_handShake_zero_byte_in_remote_seed :
    round1Nul.body.take 16 = [16, 0, 18, 19, 20, 21, 22, 23, 24, 25, 26, 27, 28, 29, 30, 31]
    ∧ cstrBytes round1Nul.body = [16]
    ∧ (handShake toyCrypto freshState seedL round1Nul round2Ok).result = .fault .outOfBounds
    ∧ (handShake toyCrypto freshState seedL round1Nul round2Ok).sent.map (fun r => r.body)
      = [seedL]
    ∧ (handShake toyCrypto freshState seedL round1Nul round2Ok).self.localHash = [] := by
  decide

/-- The same run with a remote seed free of zero bytes, for comparison. -/
theorem handShake_ordering_sample :
    (handShake toyCrypto freshState seedL round1Ok round2Ok).sent.map (fun r => r.body)
      = [seedL, SHA256Hash toyCrypto (round1Ok.body.take 16 ++ seedL ++ freshState.creds)]
    ∧ (handShake toyCrypto freshState seedL round1Ok round2Ok).result = .returns true
    ∧ (handShake toyCrypto freshState seedL round1Ok round2Ok).self.localHash
      = seedL ++ round1Ok.body.take 16 ++ freshState.creds :=
  have h := handShake_ordering toyCrypto freshState seedL round1Ok round2Ok rfl (by decide)
    (by decide)
  ⟨h.1, (h.2 rfl).1, (h.2 rfl).2⟩

end lighting

namespace lighting

/-- Whatever `decrypt` returns, it leaves the object as it was. -/
theorem decrypt_fst (c : Crypto) (s : lighting) (e : List Nat) : (decrypt c s e).1 = s := by
  unfold decrypt
  split <;> rfl

/-- Claim C11. Frame of seal and open: `encrypt` changes only the `seq` field, which it
increments as a `uint32_t` (url, cookie, creds, localHash, key, sig and iv are
unchanged), and `decrypt` changes no field at all, `seq` included; both whatever the
input and whatever they return. -/
theorem C11_frame_of_encrypt_and_decrypt (c : Crypto) (s : lighting) (P e : List Nat) :
    (encrypt c s P).1 = { s with seq := (s.seq + 1) % 2 ^ 32 }
    ∧ (encrypt c s P).1.key = s.key
    ∧ (encrypt c s P).1.sig = s.sig
    ∧ (encrypt c s P).1.iv = s.iv
    ∧ (encrypt c s P).1.cookie = s.cookie
    ∧ (encrypt c s P).1.creds = s.creds
    ∧ (encrypt c s P).1.localHash = s.localHash
    ∧ (encrypt c s P).1.url = s.url
    ∧ (decrypt c s e).1 = s
    ∧ (decrypt c s e).1.seq = s.seq := by
  rw [encrypt_fst, decrypt_fst]
  exact ⟨rfl, rfl, rfl, rfl, rfl, rfl, rfl, rfl, rfl, rfl⟩

/-- The cookie that a call of `handShake` leaves: the one of its own round-1 response
when round 1 was accepted, the one it found otherwise. -/
theorem handShake_cookie (c : Crypto) (s : lighting) (L : List Nat) (r1 r2 : Response) :
    (handShake c s L r1 r2).self.cookie
      = if r1.code = 200 then sessionCookie r1.setCookie else s.cookie := by
  by_cases h1 : r1.code = 200
  · have hc1 : (!checkResponse r1.code) = false := by simp [checkResponse, h1]
    rw [if_pos h1]
    unfold handShake
    simp only [hc1, Bool.false_eq_true, if_false]
    split
    · rfl
    · split <;> rfl
  · have hc1 : (!checkResponse r1.code) = true := by simp [checkResponse, h1]
    rw [if_neg h1]
    unfold handShake
    simp only [hc1, if_true]

/-- Claim C12 (as stated, refuted). A first attempt gets the cookie `TP_SESSIONID=OLD`
in round 1 and is refused in round 2; the next attempt fails in round 1.  Both return
false, and after the second the cookie field still holds the cookie captured by the
first. -/
theorem C12_counterexample :
    (handShake toyCrypto freshState seedL round1Old round2Fail).result = .returns false
    ∧ (handShake toyCrypto freshState seedL round1Old round2Fail).self.cookie
      = "TP_SESSIONID=OLD"
    ∧ (handShake toyCrypto (handShake toyCrypto freshState seedL round1Old round2Fail).self
        seedL round1Fail round2Ok).result = .returns false
    ∧ (handShake toyCrypto (handShake toyCrypto freshState seedL round1Old round2Fail).self
        seedL round1Fail round2Ok).self.cookie = "TP_SESSIONID=OLD" := by
  decide

/-- Claim C12 (amended). After an attempt that returns false: when its round 1 was
accepted (so round 2 failed) the cookie field holds the session cookie of this
attempt's own round-1 response; when its round 1 failed the cookie field is left as the
attempt found it, so it holds whatever an earlier attempt stored.  The attempt with a
failed round 1 sends one request, without a cookie. -/
theorem C12_cookie_after_failed_attempt (c : Crypto) (s : lighting) (L : List Nat)
    (r1 r2 : Response) (hfail : (handShake c s L r1 r2).result = .returns false) :
    (r1.code = 200 →
      (handShake c s L r1 r2).self.cookie = sessionCookie r1.setCookie
      ∧ r2.code ≠ 200)
    ∧ (r1.code ≠ 200 →
      (handShake c s L r1 r2).self.cookie = s.cookie
      ∧ (handShake c s L r1 r2).sent.map (fun r => r.cookie) = [none]) := by
  refine ⟨fun h1 => ⟨by rw [handShake_cookie, if_pos h1], ?_⟩,
    fun h1 => ⟨by rw [handShake_cookie, if_neg h1], ?_⟩⟩
  · intro h2
    have hc1 : (!checkResponse r1.code) = false := by simp [checkResponse, h1]
    have hc2 : (!checkResponse r2.code) = false := by simp [checkResponse, h2]
    unfold handShake at hfail
    simp only [hc1, hc2, Bool.false_eq_true, if_false] at hfail
    split at hfail <;> simp at hfail
  · have hc1 : (!checkResponse r1.code) = true := by simp [checkResponse, h1]
    unfold handShake
    simp only [hc1, if_true, List.map_cons, List.map_nil]

/-- Witness of C12 (amended): the two attempts of the counterexample. -/
theorem C12_cookie_after_failed_attempt_witness :
    (handShake toyCrypto freshState seedL round1Old round2Fail).self.cookie
      = sessionCookie round1Old.setCookie
    ∧ (handShake toyCrypto { freshState with cookie := "TP_SESSIONID=OLD" }
        seedL round1Fail round2Ok).self.cookie = "TP_SESSIONID=OLD" :=
  ⟨((C12_cookie_after_failed_attempt toyCrypto freshState seedL round1Old round2Fail
      (by decide)).1 (by decide)).1,
   ((C12_cookie_after_failed_attempt toyCrypto { freshState with cookie := "TP_SESSIONID=OLD" }
      seedL round1Fail round2Ok (by decide)).2 (by decide)).1⟩

end lighting

namespace lighting

/-- The key that `encryptionSetup` stores. -/
theorem encryptionSetup_key_cookie (c : Crypto) (s : lighting) :
    (encryptionSetup c s).key = (SHA256Hash c (ascii "lsk" ++ s.localHash)).take 16
    ∧ (encryptionSetup c s).cookie = s.cookie
    ∧ (encryptionSetup c s).localHash = s.localHash :=
  ⟨rfl, rfl, rfl⟩

end lighting

namespace lighting

/-- A call of `handShake` writes neither `url` nor `creds`. -/
theorem handShake_url_creds (c : Crypto) (s : lighting) (L : List Nat) (r1 r2 : Response) :
    (handShake c s L r1 r2).self.url = s.url ∧ (handShake c s L r1 r2).self.creds = s.creds := by
  by_cases h1 : (!checkResponse r1.code) = true
  · simp [handShake, h1]
  · by_cases h2 : (cstrBytes r1.body).length < 16
    · simp [handShake, h1, h2]
    · by_cases h3 : (!checkResponse r2.code) = true
      · simp [handShake, h1, h2, h3]
      · simp [handShake, h1, h2, h3]

/-- What a successful call of `handShake` has stored and sent. -/
theorem handShake_success (c : Crypto) (s : lighting) (L : List Nat) (r1 r2 : Response)
    (h : (handShake c s L r1 r2).result = .returns true) :
    (handShake c s L r1 r2).self.cookie = sessionCookie r1.setCookie
    ∧ (handShake c s L r1 r2).self.localHash = L ++ (cstrBytes r1.body).take 16 ++ s.creds
    ∧ (handShake c s L r1 r2).sent.map (fun r => r.cookie)
      = [none, some (sessionCookie r1.setCookie)] := by
  by_cases h1 : (!checkResponse r1.code) = true
  · simp [handShake, h1] at h
  · by_cases h2 : (cstrBytes r1.body).length < 16
    · simp [handShake, h1, h2] at h
    · by_cases h3 : (!checkResponse r2.code) = true
      · simp [handShake, h1, h2, h3] at h
      · simp [handShake, h1, h2, h3, sessionCookie]

/-- The retry loop over attempts that fail, then one that succeeds: the loop is left
with the object of the successful attempt. -/
theorem handShakeLoop_until_success (c : Crypto) (a : Attempt) (later : List Attempt)
    (hok : ∀ s, (handShake c s a.localSeed a.r1 a.r2).result = .returns true) :
    ∀ (failed : List Attempt) (s : lighting),
      (∀ f ∈ failed, ∀ s, (handShake c s f.localSeed f.r1 f.r2).result = .returns false) →
      ∃ s1, s1.creds = s.creds ∧ s1.url = s.url
        ∧ handShakeLoop c s (failed ++ a :: later)
          = ((handShake c s1 a.localSeed a.r1 a.r2).self, .returns true)
  | [], s, _ => by
    refine ⟨s, rfl, rfl, ?_⟩
    simp only [List.nil_append, handShakeLoop, hok s]
  | f :: failed, s, hf => by
    have hf0 := hf f (List.mem_cons_self _ _) s
    obtain ⟨s1, hc, hu, hl⟩ := handShakeLoop_until_success c a later hok failed
      (handShake c s f.localSeed f.r1 f.r2).self
      (fun g hg => hf g (List.mem_cons_of_mem _ hg))
    have hp := handShake_url_creds c s f.localSeed f.r1 f.r2
    refine ⟨s1, hc.trans hp.2, hu.trans hp.1, ?_⟩
    simp only [List.cons_append, handShakeLoop, hf0]
    exact hl

/-- Claim C13. Cookie and keys are paired: when the attempts of the constructor's retry
loop fail one after another and then one returns true, the constructor leaves the loop
and calls `encryptionSetup` on an object whose cookie is the session cookie of the
round-1 response of that successful attempt and whose `localHash` is that attempt's
local seed, the remote seed it took from its round-1 body, and the credentials; the
cookie it sent in round 2 is the same one, `encryptionSetup` keeps it, and the keys
are derived from that `localHash`. -/
theorem C13_cookie_and_keys_from_same_attempt (c : Crypto) (url : String) (creds : List Nat)
    (seq0 : Nat) (failed : List Attempt) (a : Attempt) (later : List Attempt)
    (hfailed : ∀ f ∈ failed, ∀ s, (handShake c s f.localSeed f.r1 f.r2).result = .returns false)
    (hok : ∀ s, (handShake c s a.localSeed a.r1 a.r2).result = .returns true) :
    ∃ obj, construct c url creds seq0 (failed ++ a :: later)
        = .returns (some (encryptionSetup c obj))
      ∧ obj.cookie = sessionCookie a.r1.setCookie
      ∧ obj.localHash = a.localSeed ++ (cstrBytes a.r1.body).take 16 ++ creds
      ∧ (encryptionSetup c obj).cookie = sessionCookie a.r1.setCookie
      ∧ (encryptionSetup c obj).localHash
        = a.localSeed ++ (cstrBytes a.r1.body).take 16 ++ creds
      ∧ (encryptionSetup c obj).key
        = (SHA256Hash c (ascii "lsk"
            ++ (a.localSeed ++ (cstrBytes a.r1.body).take 16 ++ creds))).take 16
      ∧ (∃ s1, (handShake c s1 a.localSeed a.r1 a.r2).self = obj
          ∧ (handShake c s1 a.localSeed a.r1 a.r2).sent.map (fun r => r.cookie)
            = [none, some obj.cookie]) := by
  obtain ⟨s1, hc, _, hl⟩ := handShakeLoop_until_success c a later hok failed
    { url := url, cookie := "", creds := creds, localHash := [], key := [], sig := [],
      iv := [], seq := seq0 } hfailed
  obtain ⟨h1, h2, h3⟩ := handShake_success c s1 a.localSeed a.r1 a.r2 (hok s1)
  have hcreds : s1.creds = creds := hc
  rw [hcreds] at h2
  refine ⟨(handShake c s1 a.localSeed a.r1 a.r2).self, ?_, h1, h2, h1, h2, ?_, s1, rfl, ?_⟩
  · simp only [construct, hl]
  · rw [(encryptionSetup_key_cookie c _).1, h2]
  · rw [h3, h1]

/-- Witness of C13: two failed attempts (round 2 refused after the cookie
`TP_SESSIONID=OLD`, then round 1 refused) and a successful one with the cookie
`TP_SESSIONID=ABC`. -/
theorem C13_cookie_and_keys_from_same_attempt_witness :
    ∃ obj, construct toyCrypto "http://192.168.1.10/app" [1, 2, 3] 0
        ([⟨seedL, round1Old, round2Fail⟩, ⟨seedL, round1Fail, round2Ok⟩]
          ++ ⟨seedL, round1Ok, round2Ok⟩ :: [])
        = .returns (some (encryptionSetup toyCrypto obj))
      ∧ obj.cookie = sessionCookie round1Ok.setCookie
      ∧ obj.localHash = seedL ++ (cstrBytes round1Ok.body).take 16 ++ [1, 2, 3] :=
  match C13_cookie_and_keys_from_same_attempt toyCrypto "http://192.168.1.10/app" [1, 2, 3] 0
    [⟨seedL, round1Old, round2Fail⟩, ⟨seedL, round1Fail, round2Ok⟩]
    ⟨seedL, round1Ok, round2Ok⟩ []
    (by
      intro f hf s
      simp only [List.mem_cons, List.mem_singleton, List.not_mem_nil, or_false] at hf
      rcases hf with rfl | rfl <;> rfl)
    (fun _ => rfl) with
  | ⟨obj, h1, h2, h3, _⟩ => ⟨obj, h1, h2, h3⟩

end lighting

namespace lighting

/-- The conversion through `c_str()` keeps a text without NUL as it is. -/
theorem cstr_of_no_nul (h : String) (hn : Char.ofNat 0 ∉ h.data) : cstr h = h := by
  have : h.data.takeWhile (fun x => x != Char.ofNat 0) = h.data := by
    rw [List.takeWhile_eq_self_iff]
    intro x hx
    simp only [bne_iff_ne, ne_eq]
    intro hx0
    exact hn (hx0 ▸ hx)
  show (⟨h.data.takeWhile (fun x => x != Char.ofNat 0)⟩ : String) = h
  rw [this]

/-- The session cookie of a header value without NUL: its characters before the first
`;`. -/
theorem sessionCookie_data (h : String) (hn : Char.ofNat 0 ∉ h.data) :
    (sessionCookie h).data = h.data.takeWhile (fun x => x != ';') := by
  have h2 : Char.ofNat 0 ∉ (⟨h.data.takeWhile (fun x => x != ';')⟩ : String).data :=
    fun hm => hn ((List.takeWhile_sublist _).subset hm)
  show (cstr ⟨(cstr h).data.takeWhile (fun x => x != ';')⟩).data = _
  rw [cstr_of_no_nul h hn, cstr_of_no_nul _ h2]

/-- Claim C14. Session cookie extraction: when round 1 is accepted, the cookie that
`handShake` stores is the prefix of the `Set-Cookie` header value `h` up to but
excluding the first `;` (`h` is the stored cookie followed by nothing or by a rest that
starts with `;`, and the stored cookie has no `;` in it), and it is the whole of `h`
when `h` has no `;`.  A header value is text without NUL characters. -/
theorem C14_session_cookie_extraction (c : Crypto) (s : lighting) (L : List Nat)
    (r1 r2 : Response) (h1 : r1.code = 200) (hn : Char.ofNat 0 ∉ r1.setCookie.data) :
    (handShake c s L r1 r2).self.cookie.data
      = r1.setCookie.data.takeWhile (fun x => x != ';')
    ∧ (∃ rest, r1.setCookie.data = (handShake c s L r1 r2).self.cookie.data ++ rest
        ∧ (rest = [] ∨ rest.head? = some ';'))
    ∧ ';' ∉ (handShake c s L r1 r2).self.cookie.data
    ∧ (';' ∉ r1.setCookie.data → (handShake c s L r1 r2).self.cookie = r1.setCookie) := by
  have hck : (handShake c s L r1 r2).self.cookie.data
      = r1.setCookie.data.takeWhile (fun x => x != ';') := by
    rw [handShake_cookie, if_pos h1, sessionCookie_data _ hn]
  refine ⟨hck, ⟨r1.setCookie.data.dropWhile (fun x => x != ';'), ?_, ?_⟩, ?_, ?_⟩
  · rw [hck, List.takeWhile_append_dropWhile]
  · have hd := List.head?_dropWhile_not (fun x => x != ';') r1.setCookie.data
    cases hh : (r1.setCookie.data.dropWhile (fun x => x != ';')).head? with
    | none =>
      left
      exact List.head?_eq_none_iff.1 hh
    | some x =>
      right
      rw [hh] at hd
      simp only [bne_eq_false_iff_eq] at hd
      rw [hd]
  · rw [hck]
    intro hm
    have := List.mem_takeWhile_imp hm
    simp at this
  · intro hs
    have hall : r1.setCookie.data.takeWhile (fun x => x != ';') = r1.setCookie.data := by
      rw [List.takeWhile_eq_self_iff]
      intro x hx
      simp only [bne_iff_ne, ne_eq]
      intro hx0
      exact hs (hx0 ▸ hx)
    rw [hall] at hck
    exact String.ext hck

/-- Witness of C14: the header value `TP_SESSIONID=ABC;TIMEOUT=1440`. -/
theorem C14_session_cookie_extraction_witness :
    (handShake toyCrypto freshState seedL round1Ok round2Ok).self.cookie.data
      = "TP_SESSIONID=ABC".data
    ∧ ';' ∉ (handShake toyCrypto freshState seedL round1Ok round2Ok).self.cookie.data :=
  have h := C14_session_cookie_extraction toyCrypto freshState seedL round1Ok round2Ok rfl
    (by decide)
  ⟨h.1.trans (by decide), h.2.2.1⟩

end lighting

namespace lighting

/-- A header value with a NUL character in it would be cut there by the conversions
through `c_str()`. -/
theorem sessionCookie_nul_sample :
    sessionCookie ⟨['A', Char.ofNat 0, 'B', ';', 'C']⟩ = "A" := by
  decide

/-- What a call of `executeRequest` does in a state whose `iv` has its 12 bytes. -/
theorem executeRequest_shape (c : Crypto) (s : lighting) (data : List Nat) (resp : Response)
    (hiv : 12 ≤ s.iv.length) :
    ∃ payload, encrypt c s data = (s.bump, .returns payload)
      ∧ (executeRequest c s data resp).self = s.bump
      ∧ (executeRequest c s data resp).sent
        = [{ url := s.url ++ "/request?seq=" ++ toString ((s.seq + 1) % 2 ^ 32),
             cookie := some s.cookie, body := payload }]
      ∧ (resp.code ≠ 200 →
          (executeRequest c s data resp).result
            = .returns { success := false, response := [] }) := by
  obtain ⟨ct, _, _, henc⟩ := encrypt_shape c s data hiv
  refine ⟨_, henc, ?_⟩
  have hd1 := decrypt_fst c s.bump resp.body
  by_cases h : (!checkResponse resp.code) = true
  · have hex : executeRequest c s data resp
        = { self := s.bump,
            sent := [{ url := s.bump.url ++ "/request?seq=" ++ toString s.bump.seq,
                       cookie := some s.bump.cookie,
                       body := SHA256Hash c (s.sig ++ BE32 (s.seq + 1) ++ ct) ++ ct }],
            result := .returns { success := false, response := [] } } := by
      simp only [executeRequest, henc, h, if_true]
    rw [hex]
    exact ⟨rfl, rfl, fun _ => rfl⟩
  · have hcode : resp.code = 200 := by
      simpa [checkResponse] using h
    rcases hd : decrypt c s.bump resp.body with ⟨s2, o⟩
    have hs2 : s2 = s.bump := by rw [← hd1, hd]
    subst hs2
    cases o with
    | returns str =>
      have hex : executeRequest c s data resp
          = { self := s.bump,
              sent := [{ url := s.bump.url ++ "/request?seq=" ++ toString s.bump.seq,
                         cookie := some s.bump.cookie,
                         body := SHA256Hash c (s.sig ++ BE32 (s.seq + 1) ++ ct) ++ ct }],
              result := .returns { success := true, response := str } } := by
        simp only [executeRequest, henc, h, hd]
        rfl
      rw [hex]
      exact ⟨rfl, rfl, fun hne => absurd hcode hne⟩
    | fault f =>
      have hex : executeRequest c s data resp
          = { self := s.bump,
              sent := [{ url := s.bump.url ++ "/request?seq=" ++ toString s.bump.seq,
                         cookie := some s.bump.cookie,
                         body := SHA256Hash c (s.sig ++ BE32 (s.seq + 1) ++ ct) ++ ct }],
              result := .fault f } := by
        simp only [executeRequest, henc, h, hd]
        rfl
      rw [hex]
      exact ⟨rfl, rfl, fun hne => absurd hcode hne⟩

/-- Claim C15 (as stated, refuted). In a state with `seq = 2^32 - 1` the request goes to
`.../request?seq=0`, not to `seq=4294967296`, and a refused request leaves `seq` at 0:
the counter is a `uint32_t` and wraps. -/
theorem C15_counterexample :
    (executeRequest toyCrypto { sampleState with seq := 4294967295 } [1, 2] round1Fail).sent.map
        (fun r => r.url) = ["http://192.168.1.10/app/request?seq=0"]
    ∧ (executeRequest toyCrypto { sampleState with seq := 4294967295 } [1, 2] round1Fail).self.seq
      = 0
    ∧ (executeRequest toyCrypto { sampleState with seq := 4294967295 } [1, 2] round1Fail).self.seq
      ≠ 4294967295 + 1
    ∧ (executeRequest toyCrypto { sampleState with seq := 4294967295 } [1, 2] round1Fail).result
      = .returns { success := false, response := [] } := by
  decide

/-- Claim C15 (amended). In a state with sequence `S` whose `iv` has its 12 bytes,
`executeRequest` sends exactly one request, to
`url ++ "/request?seq=" ++ decimal((S + 1) mod 2^32)`, with the stored cookie, and its
body is the sealing of the command with that same value `(S + 1) mod 2^32`: the nonce
is `iv ++ BE32((S + 1) mod 2^32)` and the tag is the digest of
`sig ++ BE32((S + 1) mod 2^32) ++ ciphertext`.  When the status is not 200 it returns
`success = false` having sent that one request, with `seq` left at `(S + 1) mod 2^32`.
As long as `S + 1 < 2^32` that value is `S + 1`. -/
theorem C15_request_sequencing (c : Crypto) (s : lighting) (data : List Nat) (resp : Response)
    (hiv : s.iv.length = 12) :
    (encrypt c s data).2
      = .returns (sealWith c s.key s.sig s.iv ((s.seq + 1) % 2 ^ 32) data)
    ∧ (encrypt c s data).1.seq = (s.seq + 1) % 2 ^ 32
    ∧ (executeRequest c s data resp).sent
      = [{ url := s.url ++ "/request?seq=" ++ toString ((s.seq + 1) % 2 ^ 32),
           cookie := some s.cookie,
           body := sealWith c s.key s.sig s.iv ((s.seq + 1) % 2 ^ 32) data }]
    ∧ (executeRequest c s data resp).self.seq = (s.seq + 1) % 2 ^ 32
    ∧ (resp.code ≠ 200 →
        (executeRequest c s data resp).result
          = .returns { success := false, response := [] })
    ∧ (s.seq + 1 < 2 ^ 32 →
        (executeRequest c s data resp).sent
          = [{ url := s.url ++ "/request?seq=" ++ toString (s.seq + 1),
               cookie := some s.cookie,
               body := sealWith c s.key s.sig s.iv (s.seq + 1) data }]
        ∧ (executeRequest c s data resp).self.seq = s.seq + 1) := by
  obtain ⟨payload, henc, hself, hsent, hres⟩ :=
    executeRequest_shape c s data resp (by omega)
  have hseal := encrypt_eq_sealWith c s data hiv
  have hp : payload = sealWith c s.key s.sig s.iv ((s.seq + 1) % 2 ^ 32) data := by
    rw [henc] at hseal
    simpa using hseal
  subst hp
  refine ⟨by rw [henc], by rw [henc]; rfl, hsent, by rw [hself]; rfl, hres, ?_⟩
  intro hlt
  have hm : (s.seq + 1) % 2 ^ 32 = s.seq + 1 := Nat.mod_eq_of_lt hlt
  rw [hsent, hself]
  exact ⟨by rw [hm], hm⟩

/-- Witness of C15 (amended): a refused request from `seq = 41`. -/
theorem C15_request_sequencing_witness :
    (executeRequest toyCrypto sampleState [1, 2] round1Fail).sent
      = [{ url := "http://192.168.1.10/app/request?seq=42",
           cookie := some "TP_SESSIONID=ABC",
           body := sealWith toyCrypto sampleState.key sampleState.sig sampleState.iv 42 [1, 2] }]
    ∧ (executeRequest toyCrypto sampleState [1, 2] round1Fail).self.seq = 42
    ∧ (executeRequest toyCrypto sampleState [1, 2] round1Fail).result
      = .returns { success := false, response := [] } :=
  match C15_request_sequencing toyCrypto sampleState [1, 2] round1Fail (by decide) with
  | ⟨_, _, _, _, h5, h6⟩ => ⟨(h6 (by decide)).1.trans (by decide), (h6 (by decide)).2,
      h5 (by decide)⟩

end lighting

namespace lighting

/-- Consecutive calls of `encrypt` leave `iv` as it was. -/
theorem encryptAll_iv (c : Crypto) : ∀ (ps : List (List Nat)) (s : lighting),
    (encryptAll c s ps).1.iv = s.iv
  | [], _ => rfl
  | p :: ps, s => by
    have e : (encryptAll c s (p :: ps)).1 = (encryptAll c (encrypt c s p).1 ps).1 := rfl
    rw [e, encryptAll_iv c ps, encrypt_fst]
    rfl

/-- Claim C16. Counter encoding and nonce size: for every 32-bit `seq`, `seq_to_bytes`
returns exactly 4 bytes, each below 256, whose big-endian reading, done as
`encryptionSetup` does it on the tail of the digest, is `seq` again; and in every state
produced by `encryptionSetup`, and after any number of calls of `encrypt` from it, `iv`
has 12 bytes and `iv_seq` returns exactly 16 bytes, so the 16-byte copy of the nonce in
`encrypt` and `decrypt` stays inside it and `encrypt` returns. -/
theorem C16_counter_encoding_and_nonce_size (c : Crypto) (s s0 : lighting)
    (hseq : s.seq < 2 ^ 32) (ps : List (List Nat)) (P : List Nat) :
    s.seq_to_bytes.length = 4
    ∧ (∀ b ∈ s.seq_to_bytes, b < 256)
    ∧ readSeq s.seq_to_bytes = s.seq
    ∧ (encryptionSetup c s0).seq
      = readSeq (SHA256Hash c (ascii "iv" ++ s0.localHash))
    ∧ (encryptionSetup c s0).iv.length = 12
    ∧ (encryptionSetup c s0).iv_seq.length = 16
    ∧ (encryptAll c (encryptionSetup c s0) ps).1.iv_seq.length = 16
    ∧ (∃ out, (encrypt c (encryptAll c (encryptionSetup c s0) ps).1 P).2 = .returns out) := by
  have hbe : s.seq_to_bytes = BE32 s.seq := seq_to_bytes_eq_BE32 s
  have hiv12 : (encryptionSetup c s0).iv.length = 12 := by
    have hl : (SHA256Hash c (['i'.toNat, 'v'.toNat] ++ s0.localHash)).length = 32 :=
      c.sha256_size _
    show ((SHA256Hash c (['i'.toNat, 'v'.toNat] ++ s0.localHash)).take 12).length = 12
    rw [List.length_take, hl]; rfl
  have hall : (encryptAll c (encryptionSetup c s0) ps).1.iv.length = 12 := by
    rw [encryptAll_iv, hiv12]
  refine ⟨rfl, ?_, ?_, rfl, hiv12, by rw [iv_seq_length, hiv12],
    by rw [iv_seq_length, hall], ?_⟩
  · intro b hb
    rw [hbe] at hb
    simp only [BE32, List.mem_cons, List.mem_singleton, List.not_mem_nil, or_false] at hb
    omega
  · rw [hbe]
    show ((s.seq / 2 ^ 24 % 256) <<< 24 ||| (s.seq / 2 ^ 16 % 256) <<< 16
      ||| (s.seq / 2 ^ 8 % 256) <<< 8 ||| s.seq % 256) % 2 ^ 32 = s.seq
    rw [shift_or_eq _ _ _ _ (Nat.mod_lt _ (by norm_num)) (Nat.mod_lt _ (by norm_num))
      (Nat.mod_lt _ (by norm_num)) (Nat.mod_lt _ (by norm_num))]
    omega
  · obtain ⟨ct, _, _, henc⟩ := encrypt_shape c (encryptAll c (encryptionSetup c s0) ps).1 P
      (by omega)
    exact ⟨_, by rw [henc]⟩

/-- Witness of C16: the sequence value `0x01020304`, and the state derived from
`freshState`. -/
theorem C16_counter_encoding_and_nonce_size_witness :
    ({ sampleState with seq := 16909060 } : lighting).seq_to_bytes = [1, 2, 3, 4]
    ∧ readSeq [1, 2, 3, 4] = 16909060
    ∧ (encryptionSetup toyCrypto freshState).iv_seq.length = 16 :=
  have h := C16_counter_encoding_and_nonce_size toyCrypto { sampleState with seq := 16909060 }
    freshState (by decide) [] []
  ⟨by decide, h.2.2.1, h.2.2.2.2.2.1⟩

/-- Claim C17. `toggleLight` ignores its argument: for both values of `lightState` the
document it builds and serializes for `executeRequest` is the same one, with `method`
set to "set_device_info" and `params.device_on` set to `true`; so the two calls do the
same, and `toggleLight(false)` does not ask for `device_on = false`. -/
theorem C17_toggleLight_ignores_argument (c : Crypto) (serializeJson : JsonDocument → List Nat)
    (s : lighting) (lightState : Bool) (resp : Response) :
    toggleLightDoc lightState
      = [(["method"], .str "set_device_info"), (["params", "device_on"], .bool true)]
    ∧ toggleLightDoc false = toggleLightDoc true
    ∧ toggleLight c serializeJson s lightState resp
      = executeRequest c s (serializeJson
          [(["method"], .str "set_device_info"), (["params", "device_on"], .bool true)]) resp
    ∧ toggleLight c serializeJson s false resp = toggleLight c serializeJson s true resp
    ∧ (["params", "device_on"], JsonScalar.bool false) ∉ toggleLightDoc false :=
  ⟨rfl, rfl, rfl, rfl, by decide⟩

end lighting
